import Mathlib

/-!
Verification of the Schema-Alignment & Reconstruction Pipeline
(repository trip_recommender).

Shallow embedding of the Python sources:
  scripts/build_ref_text.py   (normalize, load_schema, parse_text_responses,
                               match_questions, export_text)
  scripts/build_user_json.py  (load_schema, parse_ref_text, detect_answer_type,
                               build_typeform_json)
  logic/normalize_typeform.py (normalize_typeform)

Python strings are modelled as `List Char`; Python library calls
(`str.strip`, `str.lower`, `str.splitlines`, the `re` patterns actually
used, and `difflib.get_close_matches` / `SequenceMatcher.ratio`) are
translated from their CPython semantics, restricted to the exact patterns
and call sites occurring in the sources.  Python `float` results on digit
runs are represented as exact naturals, and similarity scores as exact
rationals (CPython computes `2*M/T` in binary floating point; all
concrete scores appearing in the theorems below are short dyadic /
small-denominator values on tiny strings, where the two agree).
-/

set_option autoImplicit false

namespace TripRec

/-- Characters accepted by CPython's `str.isspace`, `str.strip()` with no
argument, and the regex class `\s` on `str` patterns
(`Py_UNICODE_ISSPACE`). -/
def isPySpace (c : Char) : Bool :=
  let n := c.toNat
  (9 ≤ n && n ≤ 13) || (28 ≤ n && n ≤ 31) || n == 32 || n == 133 || n == 160 ||
  n == 5760 || (8192 ≤ n && n ≤ 8202) || n == 8232 || n == 8233 || n == 8239 ||
  n == 8287 || n == 12288

/-- Line boundary characters of CPython's `str.splitlines`
(`\n \r \v \f \x1c \x1d \x1e \x85    `; `\r\n` counts as one
boundary and is handled in `pySplitlines`). -/
def isPyLineBreak (c : Char) : Bool :=
  let n := c.toNat
  (10 ≤ n && n ≤ 13) || (28 ≤ n && n ≤ 30) || n == 133 || n == 8232 || n == 8233

/-- Python `str.lstrip()` (no argument). -/
def pyLStrip (s : List Char) : List Char := s.dropWhile isPySpace

/-- Python `str.rstrip()` (no argument). -/
def pyRStrip (s : List Char) : List Char := (s.reverse.dropWhile isPySpace).reverse

/-- Python `str.strip()` (no argument). -/
def pyStrip (s : List Char) : List Char := pyRStrip (pyLStrip s)

/-- Python `str.lower`, modelled characterwise by `Char.toLower`
(agrees with CPython on every character the pipeline's claims touch;
CPython's full Unicode case folding differs only on a handful of
non-ASCII letters). -/
def pyLower (s : List Char) : List Char := s.map Char.toLower

/-- The character class `[a-z0-9 ]` of `build_ref_text.normalize`. -/
def isNormKeep (c : Char) : Bool :=
  let n := c.toNat
  (97 ≤ n && n ≤ 122) || (48 ≤ n && n ≤ 57) || n == 32

/-- `build_ref_text.normalize`:
`re.sub(r"[^a-z0-9 ]+", "", text.lower().strip())` —
removing every maximal run of characters outside `[a-z0-9 ]` is the same
as deleting each such character, i.e. filtering. -/
def normalize (s : List Char) : List Char :=
  (pyStrip (pyLower s)).filter isNormKeep

lemma mem_of_mem_dropWhile {α : Type} (p : α → Bool) {l : List α} {a : α}
    (h : a ∈ l.dropWhile p) : a ∈ l := by
  induction l with
  | nil => simp [List.dropWhile] at h
  | cons x xs ih =>
      rw [List.dropWhile] at h
      by_cases hx : p x
      · simp [hx] at h
        exact List.mem_cons_of_mem _ (ih h)
      · simp [hx] at h
        simpa using h

lemma mem_of_mem_pyStrip {c : Char} {s : List Char} (h : c ∈ pyStrip s) : c ∈ s := by
  unfold pyStrip pyRStrip pyLStrip at h
  rw [List.mem_reverse] at h
  have h2 := mem_of_mem_dropWhile _ h
  rw [List.mem_reverse] at h2
  exact mem_of_mem_dropWhile _ h2

lemma toLower_of_normKeep {c : Char} (h : isNormKeep c = true) : c.toLower = c := by
  unfold isNormKeep at h
  simp only [Bool.or_eq_true, Bool.and_eq_true, decide_eq_true_eq, beq_iff_eq] at h
  have hn : ¬ (65 ≤ c.toNat ∧ c.toNat ≤ 90) := by
    rintro ⟨h65, h90⟩
    rcases h with (h1 | h2) | h3 <;> omega
  unfold Char.toLower
  simp only [ge_iff_le, hn, if_false]

lemma map_toLower_of_all_normKeep {l : List Char}
    (h : ∀ c ∈ l, isNormKeep c = true) : pyLower l = l := by
  unfold pyLower
  induction l with
  | nil => rfl
  | cons x xs ih =>
      simp only [List.map_cons]
      rw [toLower_of_normKeep (h x (List.mem_cons_self x xs)),
        ih fun c hc => h c (List.mem_cons_of_mem _ hc)]

/-- C3, counterexample: `normalize` is not idempotent.  On `"! a"`,
stripping happens before punctuation removal, so one pass yields `" a"`
(leading space kept) while a second pass strips it to `"a"`. -/
theorem normalize_not_idempotent_cex :
    normalize (normalize ('!' :: ' ' :: 'a' :: [])) ≠
      normalize ('!' :: ' ' :: 'a' :: []) := by decide

/-- C3, amended: normalizing twice is the same as stripping surrounding
whitespace from the once-normalized string; `normalize` is idempotent
exactly on inputs whose single normalization has no surrounding spaces,
but not in general. -/
theorem normalize_normalize_eq_strip (s : List Char) :
    normalize (normalize s) = pyStrip (normalize s) := by
  have hall : ∀ c ∈ normalize s, isNormKeep c = true := by
    intro c hc
    exact (List.mem_filter.mp hc).2
  have hlow : pyLower (normalize s) = normalize s :=
    map_toLower_of_all_normKeep hall
  have hfil : (pyStrip (normalize s)).filter isNormKeep = pyStrip (normalize s) := by
    apply List.filter_eq_self.mpr
    intro c hc
    exact hall c (mem_of_mem_pyStrip hc)
  calc normalize (normalize s)
      = (pyStrip (pyLower (normalize s))).filter isNormKeep := rfl
    _ = (pyStrip (normalize s)).filter isNormKeep := by rw [hlow]
    _ = pyStrip (normalize s) := hfil

/-! ## Python dict model

Python 3 dicts preserve insertion order; assigning to an existing key
keeps its position and replaces the value. -/

/-- Python `d[k] = v` on an insertion-ordered dict. -/
def dictInsert {κ β : Type} [DecidableEq κ] (m : List (κ × β)) (k : κ) (v : β) :
    List (κ × β) :=
  match m with
  | [] => [(k, v)]
  | (k', v') :: rest =>
      if k' = k then (k', v) :: rest else (k', v') :: dictInsert rest k v

/-- Python `d.get(k)` / `k in d` / `d[k]` support. -/
def dictLookup {κ β : Type} [DecidableEq κ] (m : List (κ × β)) (k : κ) : Option β :=
  match m with
  | [] => none
  | (k', v') :: rest => if k' = k then some v' else dictLookup rest k

/-! ## difflib model

Translation of the parts of CPython's `difflib.SequenceMatcher`
(with `isjunk = None`) and `difflib.get_close_matches` that
`match_questions` exercises.  Sequences are strings, i.e. `List Char`.
Scores are exact rationals where CPython uses binary floats. -/

/-- Ascending list of the indices at which `c` occurs in `b`
(the `b2j` entry that `__chain_b` builds for `c`). -/
def positionsOf (b : List Char) (c : Char) : List Nat :=
  (b.enum.filter (fun p => p.2 = c)).map Prod.fst

/-- The autojunk rule of `SequenceMatcher.__chain_b`: for `len(b) >= 200`,
characters occupying more than 1% of `b` are dropped from `b2j`. -/
def isPopular (b : List Char) (c : Char) : Bool :=
  200 ≤ b.length && b.length / 100 + 1 < (positionsOf b c).length

/-- `b2j.get(c, [])` after `__chain_b` (with `isjunk = None`). -/
def b2jGet (b : List Char) (c : Char) : List Nat :=
  if isPopular b c then [] else positionsOf b c

/-- `j2len.get(j, 0)` on the per-row dict of `find_longest_match`. -/
def j2lenGet (m : List (Nat × Nat)) (j : Nat) : Nat := (dictLookup m j).getD 0

/-- One iteration of the inner `for j in b2j.get(a[i], nothing)` loop of
`find_longest_match`.  `old` is the previous row's `j2len`.  Python's
`j2lenget(j-1, 0)` at `j = 0` probes key `-1`, which is never present,
hence the explicit `0 < j` guard. -/
def flmStep (old : List (Nat × Nat)) (i : Nat)
    (p : (Nat × Nat × Nat) × List (Nat × Nat)) (j : Nat) :
    (Nat × Nat × Nat) × List (Nat × Nat) :=
  let k := (if 0 < j then j2lenGet old (j - 1) else 0) + 1
  let best' := if p.1.2.2 < k then (i + 1 - k, j + 1 - k, k) else p.1
  (best', p.2 ++ [(j, k)])

/-- One row (one value of `i`) of the `find_longest_match` dynamic
program; returns the updated best triple and the new `j2len`. -/
def flmRow (old : List (Nat × Nat)) (i : Nat) (js : List Nat)
    (best : Nat × Nat × Nat) : (Nat × Nat × Nat) × List (Nat × Nat) :=
  js.foldl (flmStep old i) (best, [])

/-- The indices scanned by the inner loop for row `i`: the `b2j` entry of
`a[i]`, with `j < blo` skipped by `continue` and the ascending tail cut
off by `break` at the first `j >= bhi`. -/
def rowIndices (a b : List Char) (blo bhi i : Nat) : List Nat :=
  ((b2jGet b (a.getD i default)).filter (fun j => blo ≤ j)).takeWhile (fun j => j < bhi)

/-- The full dynamic program of `find_longest_match` (before the
extension loops): iterate `flmRow` over `i in range(alo, ahi)`. -/
def flmDP (a b : List Char) (alo ahi blo bhi : Nat) : Nat × Nat × Nat :=
  ((List.range' alo (ahi - alo)).foldl
    (fun (p : (Nat × Nat × Nat) × List (Nat × Nat)) i =>
      flmRow p.2 i (rowIndices a b blo bhi i) p.1)
    ((alo, blo, 0), [])).1

/-- First extension loop of `find_longest_match` (leftward; with
`isjunk = None` the junk test is vacuous, and the third and fourth loops
never fire). -/
def extendLeft (a b : List Char) (alo blo : Nat) :
    Nat → Nat → Nat → Nat × Nat × Nat
  | 0, bestj, bestsize => (0, bestj, bestsize)
  | besti + 1, bestj, bestsize =>
      if alo < besti + 1 ∧ blo < bestj ∧
          a.getD besti default = b.getD (bestj - 1) default then
        extendLeft a b alo blo besti (bestj - 1) (bestsize + 1)
      else (besti + 1, bestj, bestsize)

/-- Kernel of the second (rightward) extension loop of
`find_longest_match`.  The counter starts at `ahi - (besti + bestsize)`
and is decremented in lockstep with the `bestsize + 1` updates, so
running out (`0`) is exactly Python's `besti + bestsize < ahi` exit; the
other two loop conditions are tested explicitly. -/
def extendRightGo (a b : List Char) (bhi besti bestj : Nat) :
    Nat → Nat → Nat
  | 0, bestsize => bestsize
  | fuel + 1, bestsize =>
      if bestj + bestsize < bhi ∧
          a.getD (besti + bestsize) default = b.getD (bestj + bestsize) default then
        extendRightGo a b bhi besti bestj fuel (bestsize + 1)
      else bestsize

/-- Second extension loop of `find_longest_match` (rightward). -/
def extendRight (a b : List Char) (ahi bhi besti bestj bestsize : Nat) : Nat :=
  extendRightGo a b bhi besti bestj (ahi - (besti + bestsize)) bestsize

/-- `SequenceMatcher.find_longest_match` on the window
`a[alo:ahi] x b[blo:bhi]`, `isjunk = None`. -/
def findLongestMatch (a b : List Char) (alo ahi blo bhi : Nat) : Nat × Nat × Nat :=
  let m := flmDP a b alo ahi blo bhi
  let l := extendLeft a b alo blo m.1 m.2.1 m.2.2
  (l.1, l.2.1, extendRight a b ahi bhi l.1 l.2.1 l.2.2)

lemma extendLeft_spec (a b : List Char) (alo blo : Nat) :
    ∀ besti bestj bestsize,
      (extendLeft a b alo blo besti bestj bestsize).1 +
          (extendLeft a b alo blo besti bestj bestsize).2.2 = besti + bestsize ∧
      (extendLeft a b alo blo besti bestj bestsize).2.1 +
          (extendLeft a b alo blo besti bestj bestsize).2.2 = bestj + bestsize ∧
      bestsize ≤ (extendLeft a b alo blo besti bestj bestsize).2.2 ∧
      (alo ≤ besti → alo ≤ (extendLeft a b alo blo besti bestj bestsize).1) ∧
      (blo ≤ bestj → blo ≤ (extendLeft a b alo blo besti bestj bestsize).2.1) := by
  intro besti
  induction besti with
  | zero => intro bestj bestsize; simp [extendLeft]
  | succ n ih =>
      intro bestj bestsize
      rw [extendLeft]
      by_cases hc : alo < n + 1 ∧ blo < bestj ∧
          a.getD n default = b.getD (bestj - 1) default
      · rw [if_pos hc]
        obtain ⟨h1, h2, h3, h4, h5⟩ := ih (bestj - 1) (bestsize + 1)
        refine ⟨by omega, by omega, by omega, fun _ => h4 (by omega), fun _ => h5 (by omega)⟩
      · rw [if_neg hc]
        exact ⟨rfl, rfl, le_refl _, fun h => h, fun h => h⟩

lemma extendRightGo_spec (a b : List Char) (bhi besti bestj : Nat) :
    ∀ fuel bestsize,
      bestsize ≤ extendRightGo a b bhi besti bestj fuel bestsize ∧
      extendRightGo a b bhi besti bestj fuel bestsize ≤ bestsize + fuel ∧
      (extendRightGo a b bhi besti bestj fuel bestsize = bestsize ∨
        bestj + extendRightGo a b bhi besti bestj fuel bestsize ≤ bhi) := by
  intro fuel
  induction fuel with
  | zero =>
      intro bestsize
      exact ⟨le_refl _, by simp [extendRightGo], Or.inl rfl⟩
  | succ fuel ih =>
      intro bestsize
      rw [extendRightGo]
      by_cases hc : bestj + bestsize < bhi ∧
          a.getD (besti + bestsize) default = b.getD (bestj + bestsize) default
      · rw [if_pos hc]
        obtain ⟨h1, h2, h3⟩ := ih (bestsize + 1)
        refine ⟨by omega, by omega, Or.inr ?_⟩
        rcases h3 with h3 | h3
        · omega
        · exact h3
      · rw [if_neg hc]
        exact ⟨le_refl _, by omega, Or.inl rfl⟩

lemma extendRight_spec (a b : List Char) (ahi bhi besti bestj bestsize : Nat) :
    bestsize ≤ extendRight a b ahi bhi besti bestj bestsize ∧
      (extendRight a b ahi bhi besti bestj bestsize = bestsize ∨
        (besti + extendRight a b ahi bhi besti bestj bestsize ≤ ahi ∧
         bestj + extendRight a b ahi bhi besti bestj bestsize ≤ bhi)) := by
  obtain ⟨h1, h2, h3⟩ := extendRightGo_spec a b bhi besti bestj
    (ahi - (besti + bestsize)) bestsize
  unfold extendRight
  refine ⟨h1, ?_⟩
  by_cases he : extendRightGo a b bhi besti bestj (ahi - (besti + bestsize)) bestsize
      = bestsize
  · exact Or.inl he
  · rcases h3 with h3 | h3
    · exact absurd h3 he
    · refine Or.inr ⟨by omega, h3⟩

lemma dictLookup_mem {κ β : Type} [DecidableEq κ] {m : List (κ × β)} {k : κ} {v : β}
    (h : dictLookup m k = some v) : (k, v) ∈ m := by
  induction m with
  | nil => simp [dictLookup] at h
  | cons p rest ih =>
      obtain ⟨k', v'⟩ := p
      rw [dictLookup] at h
      by_cases hk : k' = k
      · rw [if_pos hk] at h
        subst hk
        cases h
        exact List.mem_cons_self _ _
      · rw [if_neg hk] at h
        exact List.mem_cons_of_mem _ (ih h)

/-- Invariant carried by the best triple of the dynamic program: either
still the initial `(alo, blo, 0)`, or a genuine in-window match. -/
def bestInv (alo ahi blo bhi : Nat) (m : Nat × Nat × Nat) : Prop :=
  m = (alo, blo, 0) ∨
    (0 < m.2.2 ∧ alo ≤ m.1 ∧ blo ≤ m.2.1 ∧ m.1 + m.2.2 ≤ ahi ∧ m.2.1 + m.2.2 ≤ bhi)

lemma flmRow_inv (a b : List Char) (alo ahi blo bhi : Nat)
    (old : List (Nat × Nat)) (i : Nat)
    (hi1 : alo ≤ i) (hi2 : i < ahi)
    (hold : ∀ p ∈ old, p.2 + blo ≤ p.1 + 1 ∧ p.2 + alo ≤ i) :
    ∀ (js : List Nat) (best : Nat × Nat × Nat) (acc : List (Nat × Nat)),
      (∀ j ∈ js, blo ≤ j ∧ j < bhi) →
      bestInv alo ahi blo bhi best →
      (∀ p ∈ acc, p.2 + blo ≤ p.1 + 1 ∧ p.2 + alo ≤ i + 1) →
      bestInv alo ahi blo bhi (js.foldl (flmStep old i) (best, acc)).1 ∧
      (∀ p ∈ (js.foldl (flmStep old i) (best, acc)).2,
        p.2 + blo ≤ p.1 + 1 ∧ p.2 + alo ≤ i + 1) := by
  intro js
  induction js with
  | nil =>
      intro best acc _ hb ha
      exact ⟨hb, ha⟩
  | cons j js ih =>
      intro best acc hjs hb ha
      have hj := hjs j (List.mem_cons_self _ _)
      rw [List.foldl_cons]
      -- facts about the k computed at this step
      have hk : (if 0 < j then j2lenGet old (j - 1) else 0) + 1 + blo ≤ j + 1 ∧
          (if 0 < j then j2lenGet old (j - 1) else 0) + 1 + alo ≤ i + 1 := by
        by_cases hj0 : 0 < j
        · rw [if_pos hj0]
          cases hlk : dictLookup old (j - 1) with
          | none => simp only [j2lenGet, hlk, Option.getD_none]; omega
          | some v =>
              have hv := hold _ (dictLookup_mem hlk)
              simp only [j2lenGet, hlk, Option.getD_some]
              simp only at hv
              omega
        · rw [if_neg hj0]
          omega
      have hstep : flmStep old i (best, acc) j =
          ((if best.2.2 < (if 0 < j then j2lenGet old (j - 1) else 0) + 1 then
              (i + 1 - ((if 0 < j then j2lenGet old (j - 1) else 0) + 1),
               j + 1 - ((if 0 < j then j2lenGet old (j - 1) else 0) + 1),
               (if 0 < j then j2lenGet old (j - 1) else 0) + 1)
            else best),
           acc ++ [(j, (if 0 < j then j2lenGet old (j - 1) else 0) + 1)]) := rfl
      rw [hstep]
      apply ih
      · intro j' hj'
        exact hjs j' (List.mem_cons_of_mem _ hj')
      · -- best invariant after the step
        by_cases hlt : best.2.2 < (if 0 < j then j2lenGet old (j - 1) else 0) + 1
        · rw [if_pos hlt]
          right
          refine ⟨?_, ?_, ?_, ?_, ?_⟩ <;> simp <;> omega
        · rw [if_neg hlt]
          exact hb
      · -- accumulator invariant after the step
        intro p hp
        rcases List.mem_append.mp hp with hp | hp
        · exact ha p hp
        · rcases List.mem_singleton.mp hp with rfl
          simp only
          exact hk

lemma mem_rowIndices {a b : List Char} {blo bhi i j : Nat}
    (h : j ∈ rowIndices a b blo bhi i) : blo ≤ j ∧ j < bhi := by
  unfold rowIndices at h
  have h1 : j < bhi := by
    have := List.mem_takeWhile_imp h
    simpa using this
  have h2 : j ∈ (b2jGet b (a.getD i default)).filter (fun j => blo ≤ j) :=
    (List.takeWhile_sublist _).mem h
  have h3 := (List.mem_filter.mp h2).2
  simp at h3
  exact ⟨h3, h1⟩

lemma flmDP_bounds_aux (a b : List Char) (alo blo bhi ahi : Nat) :
    ∀ (n i : Nat) (best : Nat × Nat × Nat) (old : List (Nat × Nat)),
      alo ≤ i → (i + n ≤ ahi ∨ n = 0) →
      (∀ p ∈ old, p.2 + blo ≤ p.1 + 1 ∧ p.2 + alo ≤ i) →
      bestInv alo ahi blo bhi best →
      bestInv alo ahi blo bhi
        (((List.range' i n).foldl
          (fun (p : (Nat × Nat × Nat) × List (Nat × Nat)) i' =>
            flmRow p.2 i' (rowIndices a b blo bhi i') p.1)
          (best, old)).1) := by
  intro n
  induction n with
  | zero =>
      intro i best old _ _ _ hb
      simpa using hb
  | succ n ih =>
      intro i best old hi hn hold hb
      have hiah : i + (n + 1) ≤ ahi := by
        rcases hn with hn | hn
        · exact hn
        · omega
      rw [List.range'_succ, List.foldl_cons]
      have hrow := flmRow_inv a b alo ahi blo bhi old i hi (by omega) hold
        (rowIndices a b blo bhi i) best []
        (fun j hj => mem_rowIndices hj) hb (by intro p hp; simp at hp)
      exact ih (i + 1) _ _ (by omega) (by omega)
        (fun p hp => by
          have := hrow.2 p hp
          omega)
        hrow.1

lemma flm_compose (alo ahi blo bhi : Nat) (m l : Nat × Nat × Nat) (kR : Nat)
    (hdp : bestInv alo ahi blo bhi m)
    (h1 : l.1 + l.2.2 = m.1 + m.2.2) (h2 : l.2.1 + l.2.2 = m.2.1 + m.2.2)
    (h3 : m.2.2 ≤ l.2.2)
    (h4 : alo ≤ m.1 → alo ≤ l.1) (h5 : blo ≤ m.2.1 → blo ≤ l.2.1)
    (hr1 : l.2.2 ≤ kR)
    (hr2 : kR = l.2.2 ∨ (l.1 + kR ≤ ahi ∧ l.2.1 + kR ≤ bhi))
    (hpos : 0 < kR) :
    alo ≤ l.1 ∧ blo ≤ l.2.1 ∧ l.1 + kR ≤ ahi ∧ l.2.1 + kR ≤ bhi := by
  rcases hdp with rfl | ⟨d0, d1, d2, d3, d4⟩
  · simp only at h1 h2 h3 h4 h5
    have hl1 : l.1 = alo := by omega
    have hl21 : l.2.1 = blo := by omega
    have hl22 : l.2.2 = 0 := by omega
    rcases hr2 with hr | hr <;> omega
  · rcases hr2 with hr | hr
    · refine ⟨by omega, by omega, by omega, by omega⟩
    · refine ⟨by omega, by omega, by omega, by omega⟩

lemma flm_bounds {a b : List Char} {alo ahi blo bhi : Nat}
    (h : 0 < (findLongestMatch a b alo ahi blo bhi).2.2) :
    alo ≤ (findLongestMatch a b alo ahi blo bhi).1 ∧
    blo ≤ (findLongestMatch a b alo ahi blo bhi).2.1 ∧
    (findLongestMatch a b alo ahi blo bhi).1 +
      (findLongestMatch a b alo ahi blo bhi).2.2 ≤ ahi ∧
    (findLongestMatch a b alo ahi blo bhi).2.1 +
      (findLongestMatch a b alo ahi blo bhi).2.2 ≤ bhi := by
  have hdp : bestInv alo ahi blo bhi (flmDP a b alo ahi blo bhi) := by
    unfold flmDP
    apply flmDP_bounds_aux a b alo blo bhi ahi (ahi - alo) alo _ _ (le_refl _)
      (by omega) (by intro p hp; simp at hp)
    left; rfl
  have hleft := extendLeft_spec a b alo blo (flmDP a b alo ahi blo bhi).1
    (flmDP a b alo ahi blo bhi).2.1 (flmDP a b alo ahi blo bhi).2.2
  obtain ⟨e1, e2, e3, e4, e5⟩ := hleft
  have hright := extendRight_spec a b ahi bhi
    (extendLeft a b alo blo (flmDP a b alo ahi blo bhi).1
      (flmDP a b alo ahi blo bhi).2.1 (flmDP a b alo ahi blo bhi).2.2).1
    (extendLeft a b alo blo (flmDP a b alo ahi blo bhi).1
      (flmDP a b alo ahi blo bhi).2.1 (flmDP a b alo ahi blo bhi).2.2).2.1
    (extendLeft a b alo blo (flmDP a b alo ahi blo bhi).1
      (flmDP a b alo ahi blo bhi).2.1 (flmDP a b alo ahi blo bhi).2.2).2.2
  have hfm : findLongestMatch a b alo ahi blo bhi =
      ((extendLeft a b alo blo (flmDP a b alo ahi blo bhi).1
          (flmDP a b alo ahi blo bhi).2.1 (flmDP a b alo ahi blo bhi).2.2).1,
       (extendLeft a b alo blo (flmDP a b alo ahi blo bhi).1
          (flmDP a b alo ahi blo bhi).2.1 (flmDP a b alo ahi blo bhi).2.2).2.1,
       extendRight a b ahi bhi
         (extendLeft a b alo blo (flmDP a b alo ahi blo bhi).1
            (flmDP a b alo ahi blo bhi).2.1 (flmDP a b alo ahi blo bhi).2.2).1
         (extendLeft a b alo blo (flmDP a b alo ahi blo bhi).1
            (flmDP a b alo ahi blo bhi).2.1 (flmDP a b alo ahi blo bhi).2.2).2.1
         (extendLeft a b alo blo (flmDP a b alo ahi blo bhi).1
            (flmDP a b alo ahi blo bhi).2.1 (flmDP a b alo ahi blo bhi).2.2).2.2) :=
    rfl
  rw [hfm] at h ⊢
  simp only at h ⊢
  exact flm_compose alo ahi blo bhi (flmDP a b alo ahi blo bhi) _ _
    hdp e1 e2 e3 e4 e5 hright.1 hright.2 h

/-- Kernel of `SequenceMatcher.get_matching_blocks`, reduced to the only
datum `ratio` consumes: the total size of all matching blocks on the
window `a[alo:ahi] x b[blo:bhi]`.  The recursive window decomposition
visits the same blocks as difflib's queue-based loop; merging adjacent
blocks does not change the total.  `fuel` only bounds the recursion
depth: by `flm_bounds`, any window with a nonempty longest match has
`(ahi-alo)+(bhi-blo) >= 1` and both sub-windows are strictly smaller, so
with the initial fuel of `matchingTotal` the `0` base case is reached
only on windows with no match (see `matchingTotalGo_stable`). -/
def matchingTotalGo (a b : List Char) : Nat → Nat → Nat → Nat → Nat → Nat
  | 0, _, _, _, _ => 0
  | fuel + 1, alo, ahi, blo, bhi =>
      if 0 < (findLongestMatch a b alo ahi blo bhi).2.2 then
        matchingTotalGo a b fuel alo (findLongestMatch a b alo ahi blo bhi).1 blo
            (findLongestMatch a b alo ahi blo bhi).2.1 +
          (findLongestMatch a b alo ahi blo bhi).2.2 +
          matchingTotalGo a b fuel
            ((findLongestMatch a b alo ahi blo bhi).1 +
              (findLongestMatch a b alo ahi blo bhi).2.2) ahi
            ((findLongestMatch a b alo ahi blo bhi).2.1 +
              (findLongestMatch a b alo ahi blo bhi).2.2) bhi
      else 0

/-- Total matching-block size of `SequenceMatcher` on full `a` x `b`
windows `[alo:ahi] x [blo:bhi]`. -/
def matchingTotal (a b : List Char) (alo ahi blo bhi : Nat) : Nat :=
  matchingTotalGo a b ((ahi - alo) + (bhi - blo)) alo ahi blo bhi

/-- The fuel of `matchingTotalGo` is irrelevant as long as it dominates
the window size: the recursion always terminates before fuel runs out. -/
lemma matchingTotalGo_stable (a b : List Char) :
    ∀ n fuel fuel' alo ahi blo bhi,
      (ahi - alo) + (bhi - blo) ≤ n →
      (ahi - alo) + (bhi - blo) ≤ fuel →
      (ahi - alo) + (bhi - blo) ≤ fuel' →
      matchingTotalGo a b fuel alo ahi blo bhi =
        matchingTotalGo a b fuel' alo ahi blo bhi := by
  intro n
  induction n with
  | zero =>
      intro fuel fuel' alo ahi blo bhi hn _ _
      have hz : ¬ 0 < (findLongestMatch a b alo ahi blo bhi).2.2 := by
        intro hpos
        have := flm_bounds hpos
        omega
      cases fuel with
      | zero =>
          cases fuel' with
          | zero => rfl
          | succ f' => rw [matchingTotalGo, matchingTotalGo, if_neg hz]
      | succ f =>
          cases fuel' with
          | zero => rw [matchingTotalGo, matchingTotalGo, if_neg hz]
          | succ f' => rw [matchingTotalGo, matchingTotalGo, if_neg hz, if_neg hz]
  | succ n ih =>
      intro fuel fuel' alo ahi blo bhi hn hf hf'
      by_cases hz : 0 < (findLongestMatch a b alo ahi blo bhi).2.2
      · have hb := flm_bounds hz
        cases fuel with
        | zero => omega
        | succ f =>
            cases fuel' with
            | zero => omega
            | succ f' =>
                rw [matchingTotalGo, matchingTotalGo, if_pos hz, if_pos hz]
                rw [ih f f' alo (findLongestMatch a b alo ahi blo bhi).1 blo
                    (findLongestMatch a b alo ahi blo bhi).2.1
                    (by omega) (by omega) (by omega)]
                rw [ih f f'
                    ((findLongestMatch a b alo ahi blo bhi).1 +
                      (findLongestMatch a b alo ahi blo bhi).2.2) ahi
                    ((findLongestMatch a b alo ahi blo bhi).2.1 +
                      (findLongestMatch a b alo ahi blo bhi).2.2) bhi
                    (by omega) (by omega) (by omega)]
      · cases fuel with
        | zero =>
            cases fuel' with
            | zero => rfl
            | succ f' => rw [matchingTotalGo, matchingTotalGo, if_neg hz]
        | succ f =>
            cases fuel' with
            | zero => rw [matchingTotalGo, matchingTotalGo, if_neg hz]
            | succ f' => rw [matchingTotalGo, matchingTotalGo, if_neg hz, if_neg hz]

/-- `difflib._calculate_ratio(matches, length)`: `2*matches/length`,
or `1.0` for two empty sequences. -/
def calcRatioQ (nmatch len : Nat) : ℚ :=
  if len ≠ 0 then mkRat (2 * nmatch) len else mkRat 1 1

/-- `SequenceMatcher.ratio()` with `a` and `b` as the two sequences. -/
def ratioOf (a b : List Char) : ℚ :=
  calcRatioQ (matchingTotal a b 0 a.length 0 b.length) (a.length + b.length)

/-- The `matches` count of `SequenceMatcher.quick_ratio()`: walk `a`
decrementing per-character availability counts taken from `b`'s
multiset (counts may go negative, exactly as in Python). -/
def quickMatches (a b : List Char) : Nat :=
  (a.foldl
    (fun (p : List (Char × Int) × Nat) c =>
      let numb : Int :=
        match dictLookup p.1 c with
        | some v => v
        | none => (b.count c : Int)
      (dictInsert p.1 c (numb - 1), if 0 < numb then p.2 + 1 else p.2))
    ([], 0)).2

/-- `SequenceMatcher.quick_ratio()`. -/
def quickRatioOf (a b : List Char) : ℚ :=
  calcRatioQ (quickMatches a b) (a.length + b.length)

/-- `SequenceMatcher.real_quick_ratio()`. -/
def realQuickRatioOf (a b : List Char) : ℚ :=
  calcRatioQ (min a.length b.length) (a.length + b.length)

/-- The cutoff `0.45` used by `match_questions`. -/
def cutoffM : ℚ := mkRat 45 100

/-- The `(s.ratio(), x)` candidate list built by
`difflib.get_close_matches(word, possibilities, n=1, cutoff=0.45)`:
`x` enters if its real-quick, quick and true ratios all reach the
cutoff. -/
def closeCandidates (word : List Char) (possibilities : List (List Char)) :
    List (ℚ × List Char) :=
  possibilities.filterMap
    (fun x =>
      if cutoffM ≤ realQuickRatioOf x word ∧ cutoffM ≤ quickRatioOf x word ∧
          cutoffM ≤ ratioOf x word then
        some (ratioOf x word, x)
      else none)

/-- Python string comparison `s < t` (code-point lexicographic). -/
def pyStrLt : List Char → List Char → Bool
  | [], [] => false
  | [], _ :: _ => true
  | _ :: _, [] => false
  | c :: s, d :: t => if c = d then pyStrLt s t else decide (c < d)

/-- Python tuple comparison `p < q` on `(float, str)` pairs. -/
def pairLt (p q : ℚ × List Char) : Bool :=
  decide (p.1 < q.1) || (p.1 == q.1 && pyStrLt p.2 q.2)

/-- Python `max(l)` for a nonempty list: scan keeping the current
maximum, replacing it only on strictly greater elements. -/
def pyMax (c : ℚ × List Char) (cs : List (ℚ × List Char)) : ℚ × List Char :=
  cs.foldl (fun best p => if pairLt best p then p else best) c

/-- `difflib.get_close_matches(word, possibilities, n=1, cutoff=0.45)`;
with `n = 1`, `heapq.nlargest` is exactly `max` on the candidate list. -/
def getCloseMatches1 (word : List Char) (possibilities : List (List Char)) :
    List (List Char) :=
  match closeCandidates word possibilities with
  | [] => []
  | c :: cs => [(pyMax c cs).2]

/-! ## The Matcher (`build_ref_text.match_questions`) -/

/-- A schema field record as built by `build_ref_text.load_schema`:
`{"title": ..., "ref": ..., "type": ...}`. -/
structure SchemaField where
  title : List Char
  ref : List Char
  type : List Char
deriving DecidableEq

/-- A matched entry as built by `match_questions`:
`{"question": ..., "question_ref": ..., "answer": ..., "answer_ref": ...,
"match_type": ...}`. -/
structure MatchedEntry where
  question : List Char
  question_ref : List Char
  answer : List Char
  answer_ref : List Char
  match_type : List Char
deriving DecidableEq

/-- `schema_map = {normalize(f["title"]): f for f in fields}` — a Python
dict comprehension: insertion-ordered, later duplicates overwrite. -/
def schemaMap (fields : List SchemaField) : List (List Char × SchemaField) :=
  fields.foldl (fun m f => dictInsert m (normalize f.title) f) []

/-- `all_titles = list(schema_map.keys())`. -/
def allTitles (fields : List SchemaField) : List (List Char) :=
  (schemaMap fields).map Prod.fst

/-- Result of one iteration of the `match_questions` loop on a single
`(question, answer)` pair.  `lookupError` models the `KeyError` Python
would raise if `get_close_matches` returned a string that is not a key
of `schema_map` (provably unreachable, since the candidates are drawn
from `schema_map.keys()`). -/
inductive MatchOutcome where
  | matched (e : MatchedEntry)
  | unmatched
  | lookupError
deriving DecidableEq

/-- One iteration of the `for question, answer in qa_pairs` loop of
`match_questions`. -/
def matchOne (sm : List (List Char × SchemaField)) (allT : List (List Char))
    (question answer : List Char) : MatchOutcome :=
  match dictLookup sm (normalize question) with
  | some field =>
      .matched ⟨field.title, field.ref, answer, field.ref, ("EXACT".data)⟩
  | none =>
      match getCloseMatches1 (normalize question) allT with
      | t :: _ =>
          match dictLookup sm t with
          | some field =>
              .matched ⟨field.title, field.ref, answer, field.ref, ("FUZZY".data)⟩
          | none => .lookupError
      | [] => .unmatched

/-- `build_ref_text.match_questions`.  Returns `none` when Python would
abort with `KeyError` (unreachable in fact). -/
def match_questions (qa_pairs : List (List Char × List Char))
    (fields : List SchemaField) :
    Option (List MatchedEntry × List (List Char × List Char)) :=
  qa_pairs.foldl
    (fun st p =>
      match st with
      | none => none
      | some (matched, unmatched) =>
          match matchOne (schemaMap fields) (allTitles fields) p.1 p.2 with
          | .matched e => some (matched ++ [e], unmatched)
          | .unmatched => some (matched, unmatched ++ [p])
          | .lookupError => none)
    (some ([], []))

/-! ## Matcher lemmas -/

lemma dictLookup_dictInsert {κ β : Type} [DecidableEq κ]
    (m : List (κ × β)) (k key : κ) (v : β) :
    dictLookup (dictInsert m k v) key =
      if k = key then some v else dictLookup m key := by
  induction m with
  | nil =>
      by_cases h : k = key <;> simp [dictInsert, dictLookup, h]
  | cons p rest ih =>
      obtain ⟨k', v'⟩ := p
      rw [dictInsert]
      by_cases hk : k' = k
      · rw [if_pos hk]
        subst hk
        by_cases hkey : k' = key
        · subst hkey
          rw [dictLookup, if_pos rfl, if_pos rfl]
        · rw [dictLookup, if_neg hkey, if_neg hkey, dictLookup, if_neg hkey]
      · rw [if_neg hk]
        by_cases hkey : k' = key
        · subst hkey
          have : ¬ k = k' := fun h => hk h.symm
          rw [dictLookup, if_pos rfl, if_neg this, dictLookup, if_pos rfl]
        · rw [dictLookup, if_neg hkey, ih, dictLookup, if_neg hkey]

lemma schemaMap_append_single (fs : List SchemaField) (f : SchemaField) :
    schemaMap (fs ++ [f]) = dictInsert (schemaMap fs) (normalize f.title) f := by
  unfold schemaMap
  rw [List.foldl_append]
  rfl

/-- The key law of the Python dict comprehension
`{normalize(f["title"]): f for f in fields}`: looking a key up yields
the LAST field whose normalized title equals the key. -/
lemma schemaMap_lookup (fields : List SchemaField) (key : List Char) :
    dictLookup (schemaMap fields) key =
      (fields.filter (fun f => normalize f.title = key)).getLast? := by
  induction fields using List.reverseRecOn with
  | nil => rfl
  | append_singleton fs f ih =>
      rw [schemaMap_append_single, dictLookup_dictInsert, List.filter_append]
      by_cases h : normalize f.title = key
      · rw [if_pos h]
        have : List.filter (fun f => decide (normalize f.title = key)) [f] = [f] := by
          simp [List.filter, h]
        rw [this, List.getLast?_concat]
      · rw [if_neg h]
        have : List.filter (fun f => decide (normalize f.title = key)) [f] = [] := by
          simp [List.filter, h]
        rw [this, List.append_nil, ih]

lemma dictLookup_isSome_of_mem_keys {κ β : Type} [DecidableEq κ]
    {m : List (κ × β)} {t : κ} (h : t ∈ m.map Prod.fst) :
    ∃ v, dictLookup m t = some v := by
  induction m with
  | nil => simp at h
  | cons p rest ih =>
      obtain ⟨k', v'⟩ := p
      rw [List.map_cons, List.mem_cons] at h
      rw [dictLookup]
      by_cases hk : k' = t
      · exact ⟨v', by rw [if_pos hk]⟩
      · rcases h with h | h
        · exact absurd h.symm hk
        · rw [if_neg hk]
          exact ih h

lemma pyStrLt_irrefl : ∀ s : List Char, pyStrLt s s = false := by
  intro s
  induction s with
  | nil => rfl
  | cons c cs ih => simp [pyStrLt, ih]

lemma pyStrLt_trans : ∀ s t u : List Char,
    pyStrLt s t = true → pyStrLt t u = true → pyStrLt s u = true := by
  intro s
  induction s with
  | nil =>
      intro t u hst htu
      cases t with
      | nil => simp [pyStrLt] at hst
      | cons d ts =>
          cases u with
          | nil => simp [pyStrLt] at htu
          | cons e us => rfl
  | cons c ss ih =>
      intro t u hst htu
      cases t with
      | nil => simp [pyStrLt] at hst
      | cons d ts =>
          cases u with
          | nil => simp [pyStrLt] at htu
          | cons e us =>
              rw [pyStrLt] at hst htu ⊢
              by_cases hcd : c = d
              · subst hcd
                rw [if_pos rfl] at hst
                by_cases hde : c = e
                · subst hde
                  rw [if_pos rfl] at htu ⊢
                  exact ih ts us hst htu
                · rw [if_neg hde] at htu ⊢
                  exact htu
              · rw [if_neg hcd] at hst
                by_cases hde : d = e
                · subst hde
                  rw [if_neg hcd]
                  exact hst
                · rw [if_neg hde] at htu
                  have hlt : c < e := by
                    have h1 : c < d := of_decide_eq_true hst
                    have h2 : d < e := of_decide_eq_true htu
                    exact lt_trans h1 h2
                  by_cases hce : c = e
                  · exact absurd hlt (by rw [hce]; exact lt_irrefl e)
                  · rw [if_neg hce]
                    exact decide_eq_true hlt

lemma pyStrLt_total : ∀ s t : List Char,
    pyStrLt s t = false → t = s ∨ pyStrLt t s = true := by
  intro s
  induction s with
  | nil =>
      intro t h
      cases t with
      | nil => exact Or.inl rfl
      | cons d ts => simp [pyStrLt] at h
  | cons c ss ih =>
      intro t h
      cases t with
      | nil => exact Or.inr rfl
      | cons d ts =>
          rw [pyStrLt] at h ⊢
          by_cases hcd : c = d
          · subst hcd
            rw [if_pos rfl] at h ⊢
            rcases ih ts h with h' | h'
            · exact Or.inl (by rw [h'])
            · exact Or.inr h'
          · rw [if_neg hcd] at h
            have hndc : ¬ d = c := fun h' => hcd h'.symm
            rw [if_neg hndc]
            have h1 : ¬ c < d := of_decide_eq_false h
            have h2 : d < c := by
              rcases lt_trichotomy c d with h' | h' | h'
              · exact absurd h' h1
              · exact absurd h' hcd
              · exact h'
            exact Or.inr (decide_eq_true h2)

lemma pairLt_irrefl (p : ℚ × List Char) : pairLt p p = false := by
  simp [pairLt, pyStrLt_irrefl]

lemma pairLt_trans {p q r : ℚ × List Char}
    (h1 : pairLt p q = true) (h2 : pairLt q r = true) : pairLt p r = true := by
  unfold pairLt at *
  simp only [Bool.or_eq_true, Bool.and_eq_true, decide_eq_true_eq, beq_iff_eq] at *
  rcases h1 with h1 | ⟨h1e, h1s⟩
  · rcases h2 with h2 | ⟨h2e, h2s⟩
    · exact Or.inl (lt_trans h1 h2)
    · exact Or.inl (by rw [← h2e]; exact h1)
  · rcases h2 with h2 | ⟨h2e, h2s⟩
    · exact Or.inl (by rw [h1e]; exact h2)
    · exact Or.inr ⟨h1e.trans h2e, pyStrLt_trans _ _ _ h1s h2s⟩

lemma pairLt_total {p q : ℚ × List Char}
    (h : pairLt p q = false) : q = p ∨ pairLt q p = true := by
  unfold pairLt at *
  simp only [Bool.or_eq_false_iff, Bool.and_eq_false_iff] at h
  obtain ⟨hlt, hrest⟩ := h
  have hnlt : ¬ p.1 < q.1 := of_decide_eq_false hlt
  rcases lt_trichotomy p.1 q.1 with hq | hq | hq
  · exact absurd hq hnlt
  · -- equal scores: compare titles
    have heq : (p.1 == q.1) = true := beq_iff_eq.mpr hq
    rcases hrest with hrest | hrest
    · rw [heq] at hrest; cases hrest
    · rcases pyStrLt_total p.2 q.2 hrest with h' | h'
      · left
        obtain ⟨p1, p2⟩ := p
        obtain ⟨q1, q2⟩ := q
        simp only at hq h'
        rw [hq, h']
      · right
        simp only [Bool.or_eq_true, Bool.and_eq_true, decide_eq_true_eq, beq_iff_eq]
        exact Or.inr ⟨hq.symm, h'⟩
  · right
    simp only [Bool.or_eq_true, decide_eq_true_eq]
    exact Or.inl hq

lemma pyMax_spec (c : ℚ × List Char) (cs : List (ℚ × List Char)) :
    pyMax c cs ∈ c :: cs ∧ ∀ x ∈ c :: cs, pairLt (pyMax c cs) x = false := by
  induction cs generalizing c with
  | nil =>
      refine ⟨List.mem_singleton.mpr rfl, ?_⟩
      intro x hx
      rcases List.mem_singleton.mp hx with rfl
      exact pairLt_irrefl _
  | cons p ps ih =>
      have hunf : pyMax c (p :: ps) = pyMax (if pairLt c p then p else c) ps := by
        unfold pyMax
        rw [List.foldl_cons]
      rw [hunf]
      by_cases hcp : pairLt c p = true
      · rw [if_pos hcp]
        obtain ⟨hmem, hmax⟩ := ih p
        constructor
        · rcases List.mem_cons.mp hmem with h | h
          · rw [h]
            exact List.mem_cons_of_mem _ (List.mem_cons_self _ _)
          · exact List.mem_cons_of_mem _ (List.mem_cons_of_mem _ h)
        · intro x hx
          rcases List.mem_cons.mp hx with hxc | hx
          · -- x = c, dropped element: max dominates p which dominates c
            rw [hxc]
            by_cases hmc : pairLt (pyMax p ps) c = true
            · have hmp : pairLt (pyMax p ps) p = false := hmax p (List.mem_cons_self _ _)
              have : pairLt (pyMax p ps) p = true := pairLt_trans hmc hcp
              rw [this] at hmp; cases hmp
            · exact Bool.of_not_eq_true hmc
          · exact hmax x hx
      · have hcp' : pairLt c p = false := Bool.of_not_eq_true hcp
        rw [if_neg hcp]
        obtain ⟨hmem, hmax⟩ := ih c
        constructor
        · rcases List.mem_cons.mp hmem with h | h
          · rw [h]
            exact List.mem_cons_self _ _
          · exact List.mem_cons_of_mem _ (List.mem_cons_of_mem _ h)
        · intro x hx
          rcases List.mem_cons.mp hx with hxc | hx
          · rw [hxc]
            exact hmax c (List.mem_cons_self _ _)
          · rcases List.mem_cons.mp hx with hxp | hx
            · -- x = p, dropped element: not above c, and max not above c
              rw [hxp]
              by_cases hmp : pairLt (pyMax c ps) p = true
              · rcases pairLt_total hcp' with he | hlt
                · rw [he] at hmp
                  have := hmax c (List.mem_cons_self _ _)
                  rw [hmp] at this; cases this
                · have : pairLt (pyMax c ps) c = true := pairLt_trans hmp hlt
                  have h2 := hmax c (List.mem_cons_self _ _)
                  rw [this] at h2; cases h2
              · exact Bool.of_not_eq_true hmp
            · exact hmax x (List.mem_cons_of_mem _ hx)

lemma mem_closeCandidates {word : List Char} {ts : List (List Char)}
    {p : ℚ × List Char} :
    p ∈ closeCandidates word ts ↔
      p.2 ∈ ts ∧ cutoffM ≤ realQuickRatioOf p.2 word ∧
        cutoffM ≤ quickRatioOf p.2 word ∧ cutoffM ≤ ratioOf p.2 word ∧
        p.1 = ratioOf p.2 word := by
  unfold closeCandidates
  rw [List.mem_filterMap]
  constructor
  · rintro ⟨x, hx, hfx⟩
    by_cases hc : cutoffM ≤ realQuickRatioOf x word ∧ cutoffM ≤ quickRatioOf x word ∧
        cutoffM ≤ ratioOf x word
    · rw [if_pos hc] at hfx
      cases hfx
      exact ⟨hx, hc.1, hc.2.1, hc.2.2, rfl⟩
    · rw [if_neg hc] at hfx
      cases hfx
  · rintro ⟨hmem, h1, h2, h3, h4⟩
    refine ⟨p.2, hmem, ?_⟩
    rw [if_pos ⟨h1, h2, h3⟩]
    obtain ⟨p1, p2⟩ := p
    simp only at h4 ⊢
    rw [h4]

/-- C8: a QABlock whose normalized question text equals a normalized
schema title is matched exactly (`match_kind = EXACT`); the fuzzy branch
of `match_questions` is the `else` of this test and is never evaluated
for such a block. -/
theorem matcher_exact_on_title_match (fields : List SchemaField)
    (question answer : List Char)
    (hex : ∃ f ∈ fields, normalize f.title = normalize question) :
    ∃ field ∈ fields,
      normalize field.title = normalize question ∧
      matchOne (schemaMap fields) (allTitles fields) question answer =
        .matched ⟨field.title, field.ref, answer, field.ref, ("EXACT".data)⟩ := by
  obtain ⟨f, hf, hft⟩ := hex
  have hfilter : fields.filter (fun f => normalize f.title = normalize question) ≠ [] := by
    intro hnil
    have : f ∈ fields.filter (fun f => normalize f.title = normalize question) :=
      List.mem_filter.mpr ⟨hf, decide_eq_true hft⟩
    rw [hnil] at this
    simp at this
  have hlast := List.getLast?_eq_getLast
    (fields.filter (fun f => normalize f.title = normalize question)) hfilter
  set flast := (fields.filter (fun f => normalize f.title = normalize question)).getLast
    hfilter with hfl
  have hlook : dictLookup (schemaMap fields) (normalize question) = some flast := by
    rw [schemaMap_lookup, hlast]
  have hmemf : flast ∈ fields.filter (fun f => normalize f.title = normalize question) :=
    List.getLast_mem hfilter
  have hmem := List.mem_filter.mp hmemf
  refine ⟨flast, hmem.1, of_decide_eq_true hmem.2, ?_⟩
  unfold matchOne
  rw [hlook]

/-- C10: the dict comprehension `schema_map` keeps, for every normalized
title, only the LAST field in schema order with that normalized title;
consequently every exact match for a question normalizing to such a key
(and every fuzzy resolution of that key, which goes through the same
lookup) yields the last field's reference and title, and earlier fields
with a duplicate normalized title are unreachable. -/
theorem schemaMap_duplicate_titles_last_wins (fields : List SchemaField)
    (key question answer : List Char)
    (hdup : fields.filter (fun f => normalize f.title = key) ≠ [])
    (hq : normalize question = key) :
    ∃ flast,
      (fields.filter (fun f => normalize f.title = key)).getLast? = some flast ∧
      dictLookup (schemaMap fields) key = some flast ∧
      matchOne (schemaMap fields) (allTitles fields) question answer =
        .matched ⟨flast.title, flast.ref, answer, flast.ref, ("EXACT".data)⟩ := by
  have hlast := List.getLast?_eq_getLast
    (fields.filter (fun f => normalize f.title = key)) hdup
  set flast := (fields.filter (fun f => normalize f.title = key)).getLast hdup with hfl
  have hlook : dictLookup (schemaMap fields) key = some flast := by
    rw [schemaMap_lookup, hlast]
  refine ⟨flast, hlast, hlook, ?_⟩
  unfold matchOne
  rw [hq, hlook]

/-- C2, amended: for a QABlock with no exact normalized-title match, the
matcher computes the similarity ratio against every normalized schema
title; it produces a fuzzy match precisely when some title passes the
0.45 cutoff tests (the true ratio test together with difflib's two
quick-ratio prefilters), and the selected title maximizes the pair
(ratio, title): highest ratio first, and on exactly equal ratios the
lexicographically GREATER title — not the candidate first in schema
order. -/
theorem matcher_fuzzy_selection (fields : List SchemaField)
    (question answer : List Char)
    (hnoexact : dictLookup (schemaMap fields) (normalize question) = none) :
    (closeCandidates (normalize question) (allTitles fields) = [] →
      matchOne (schemaMap fields) (allTitles fields) question answer = .unmatched) ∧
    (∀ c cs, closeCandidates (normalize question) (allTitles fields) = c :: cs →
      ∃ sel field,
        sel ∈ allTitles fields ∧
        dictLookup (schemaMap fields) sel = some field ∧
        cutoffM ≤ ratioOf sel (normalize question) ∧
        matchOne (schemaMap fields) (allTitles fields) question answer =
          .matched ⟨field.title, field.ref, answer, field.ref, ("FUZZY".data)⟩ ∧
        (∀ t, t ∈ allTitles fields →
          cutoffM ≤ realQuickRatioOf t (normalize question) →
          cutoffM ≤ quickRatioOf t (normalize question) →
          cutoffM ≤ ratioOf t (normalize question) →
          ratioOf t (normalize question) < ratioOf sel (normalize question) ∨
            (ratioOf t (normalize question) = ratioOf sel (normalize question) ∧
              (t = sel ∨ pyStrLt t sel = true)))) := by
  constructor
  · intro hcand
    unfold matchOne
    rw [hnoexact]
    unfold getCloseMatches1
    rw [hcand]
  · intro c cs hcands
    obtain ⟨hmem, hmax⟩ := pyMax_spec c cs
    rw [← hcands] at hmem
    obtain ⟨hsel, hrq, hqr, hr, hscore⟩ := mem_closeCandidates.mp hmem
    obtain ⟨field, hfield⟩ := dictLookup_isSome_of_mem_keys (m := schemaMap fields) hsel
    refine ⟨(pyMax c cs).2, field, hsel, hfield, hr, ?_, ?_⟩
    · unfold matchOne
      rw [hnoexact]
      unfold getCloseMatches1
      rw [hcands]
      simp only
      rw [hfield]
    · intro t ht h1 h2 h3
      have htc : ((ratioOf t (normalize question), t) :
          ℚ × List Char) ∈ closeCandidates (normalize question) (allTitles fields) :=
        mem_closeCandidates.mpr ⟨ht, h1, h2, h3, rfl⟩
      rw [hcands] at htc
      have hnot := hmax _ htc
      rcases pairLt_total hnot with he | hlt
      · right
        have h21 : (pyMax c cs).1 = ratioOf t (normalize question) := by rw [← he]
        have h22 : (pyMax c cs).2 = t := by rw [← he]
        rw [← h22]
        exact ⟨by rw [← hscore, h21], Or.inl rfl⟩
      · unfold pairLt at hlt
        simp only [Bool.or_eq_true, Bool.and_eq_true, decide_eq_true_eq, beq_iff_eq] at hlt
        rcases hlt with hlt | ⟨hle, hls⟩
        · left
          rw [← hscore]
          exact hlt
        · right
          rw [← hscore]
          exact ⟨hle, Or.inr hls⟩

/-- C2, counterexample: schema titles `ax`, `ay` (in that order), question
`ab`.  There is no exact match, both titles score exactly 1/2 >= 0.45,
yet the matcher selects `ay` — the lexicographically greater title,
which is the SECOND field in schema order — refuting the claimed
first-in-schema-order tie-break. -/
theorem matcher_fuzzy_tie_break_cex :
    dictLookup (schemaMap [⟨("ax".data), ("r1".data), ("text".data)⟩,
        ⟨("ay".data), ("r2".data), ("text".data)⟩]) (normalize ("ab".data)) = none ∧
    ratioOf (normalize ("ax".data)) (normalize ("ab".data)) =
      ratioOf (normalize ("ay".data)) (normalize ("ab".data)) ∧
    cutoffM ≤ ratioOf (normalize ("ax".data)) (normalize ("ab".data)) ∧
    matchOne (schemaMap [⟨("ax".data), ("r1".data), ("text".data)⟩,
        ⟨("ay".data), ("r2".data), ("text".data)⟩])
      (allTitles [⟨("ax".data), ("r1".data), ("text".data)⟩,
        ⟨("ay".data), ("r2".data), ("text".data)⟩])
      ("ab".data) ("z".data) =
      .matched ⟨("ay".data), ("r2".data), ("z".data), ("r2".data), ("FUZZY".data)⟩ ∧
    ¬ matchOne (schemaMap [⟨("ax".data), ("r1".data), ("text".data)⟩,
        ⟨("ay".data), ("r2".data), ("text".data)⟩])
      (allTitles [⟨("ax".data), ("r1".data), ("text".data)⟩,
        ⟨("ay".data), ("r2".data), ("text".data)⟩])
      ("ab".data) ("z".data) =
      .matched ⟨("ax".data), ("r1".data), ("z".data), ("r1".data), ("FUZZY".data)⟩ := by
  decide

/-- Witness for C8 at a concrete input: schema title `Age?`, question
`AGE` (both normalize to `age`). -/
theorem matcher_exact_on_title_match_witness :
    (∃ f ∈ [(⟨("Age?".data), ("r1".data), ("number".data)⟩ : SchemaField)],
      normalize f.title = normalize ("AGE".data)) ∧
    (∃ field ∈ [(⟨("Age?".data), ("r1".data), ("number".data)⟩ : SchemaField)],
      normalize field.title = normalize ("AGE".data) ∧
      matchOne (schemaMap [⟨("Age?".data), ("r1".data), ("number".data)⟩])
        (allTitles [⟨("Age?".data), ("r1".data), ("number".data)⟩])
        ("AGE".data) ("29".data) =
        .matched ⟨field.title, field.ref, ("29".data), field.ref, ("EXACT".data)⟩) :=
  ⟨by decide,
   matcher_exact_on_title_match
     [⟨("Age?".data), ("r1".data), ("number".data)⟩] ("AGE".data) ("29".data)
     (by decide)⟩

/-- Witness for C10 at a concrete input: two fields whose titles both
normalize to `age`; the lookup and the exact match both yield the second
(last) field. -/
theorem schemaMap_duplicate_titles_last_wins_witness :
    ([(⟨("Age?".data), ("r1".data), ("number".data)⟩ : SchemaField),
       ⟨("age".data), ("r2".data), ("text".data)⟩].filter
        (fun f => normalize f.title = ("age".data)) ≠ []) ∧
    (normalize ("AGE".data) = ("age".data)) ∧
    (∃ flast,
      ([(⟨("Age?".data), ("r1".data), ("number".data)⟩ : SchemaField),
         ⟨("age".data), ("r2".data), ("text".data)⟩].filter
          (fun f => normalize f.title = ("age".data))).getLast? = some flast ∧
      dictLookup (schemaMap [⟨("Age?".data), ("r1".data), ("number".data)⟩,
          ⟨("age".data), ("r2".data), ("text".data)⟩]) ("age".data) = some flast ∧
      matchOne (schemaMap [⟨("Age?".data), ("r1".data), ("number".data)⟩,
          ⟨("age".data), ("r2".data), ("text".data)⟩])
        (allTitles [⟨("Age?".data), ("r1".data), ("number".data)⟩,
          ⟨("age".data), ("r2".data), ("text".data)⟩])
        ("AGE".data) ("29".data) =
        .matched ⟨flast.title, flast.ref, ("29".data), flast.ref, ("EXACT".data)⟩) :=
  ⟨by decide, by decide,
   schemaMap_duplicate_titles_last_wins
     [⟨("Age?".data), ("r1".data), ("number".data)⟩,
      ⟨("age".data), ("r2".data), ("text".data)⟩]
     ("age".data) ("AGE".data) ("29".data) (by decide) (by decide)⟩

/-- Witness for the amended C2 at a concrete input: the ax/ay schema and
question `ab` of the counterexample. -/
theorem matcher_fuzzy_selection_witness :
    (dictLookup (schemaMap [⟨("ax".data), ("r1".data), ("text".data)⟩,
        ⟨("ay".data), ("r2".data), ("text".data)⟩]) (normalize ("ab".data)) = none) ∧
    ((closeCandidates (normalize ("ab".data))
        (allTitles [⟨("ax".data), ("r1".data), ("text".data)⟩,
          ⟨("ay".data), ("r2".data), ("text".data)⟩]) = [] →
      matchOne (schemaMap [⟨("ax".data), ("r1".data), ("text".data)⟩,
          ⟨("ay".data), ("r2".data), ("text".data)⟩])
        (allTitles [⟨("ax".data), ("r1".data), ("text".data)⟩,
          ⟨("ay".data), ("r2".data), ("text".data)⟩])
        ("ab".data) ("z".data) = .unmatched) ∧
    (∀ c cs, closeCandidates (normalize ("ab".data))
        (allTitles [⟨("ax".data), ("r1".data), ("text".data)⟩,
          ⟨("ay".data), ("r2".data), ("text".data)⟩]) = c :: cs →
      ∃ sel field,
        sel ∈ allTitles [⟨("ax".data), ("r1".data), ("text".data)⟩,
          ⟨("ay".data), ("r2".data), ("text".data)⟩] ∧
        dictLookup (schemaMap [⟨("ax".data), ("r1".data), ("text".data)⟩,
          ⟨("ay".data), ("r2".data), ("text".data)⟩]) sel = some field ∧
        cutoffM ≤ ratioOf sel (normalize ("ab".data)) ∧
        matchOne (schemaMap [⟨("ax".data), ("r1".data), ("text".data)⟩,
            ⟨("ay".data), ("r2".data), ("text".data)⟩])
          (allTitles [⟨("ax".data), ("r1".data), ("text".data)⟩,
            ⟨("ay".data), ("r2".data), ("text".data)⟩])
          ("ab".data) ("z".data) =
          .matched ⟨field.title, field.ref, ("z".data), field.ref, ("FUZZY".data)⟩ ∧
        (∀ t, t ∈ allTitles [⟨("ax".data), ("r1".data), ("text".data)⟩,
            ⟨("ay".data), ("r2".data), ("text".data)⟩] →
          cutoffM ≤ realQuickRatioOf t (normalize ("ab".data)) →
          cutoffM ≤ quickRatioOf t (normalize ("ab".data)) →
          cutoffM ≤ ratioOf t (normalize ("ab".data)) →
          ratioOf t (normalize ("ab".data)) < ratioOf sel (normalize ("ab".data)) ∨
            (ratioOf t (normalize ("ab".data)) = ratioOf sel (normalize ("ab".data)) ∧
              (t = sel ∨ pyStrLt t sel = true))))) :=
  ⟨by decide,
   matcher_fuzzy_selection
     [⟨("ax".data), ("r1".data), ("text".data)⟩,
      ⟨("ay".data), ("r2".data), ("text".data)⟩]
     ("ab".data) ("z".data) (by decide)⟩

/-! ## Ref-Aligned Exporter (`build_ref_text.export_text`) and
Parser (`build_user_json.parse_ref_text`) -/

/-- Decimal digits of `n` (the text of Python's `f"{i}"` for a
nonnegative integer).  The counter starts at `n + 1`, which strictly
dominates the number of division steps, so the `0` case is never
reached. -/
def decReprAux : Nat → Nat → List Char
  | 0, _ => []
  | fuel + 1, n =>
      if n < 10 then [Char.ofNat (48 + n)]
      else decReprAux fuel (n / 10) ++ [Char.ofNat (48 + n % 10)]

/-- Decimal representation of a natural number. -/
def decRepr (n : Nat) : List Char := decReprAux (n + 1) n

/-- `build_ref_text.export_text`, minus the file handle: the exact
character stream written for `matched[i-1:]` when enumeration starts at
`i`.  Each record is five tagged lines followed by a blank line. -/
def exportGo (i : Nat) : List MatchedEntry → List Char
  | [] => []
  | e :: es =>
      decRepr i ++ (". Q: ".data) ++ e.question ++
      ("\n   Q_ref: ".data) ++ e.question_ref ++
      ("\n   A: ".data) ++ e.answer ++
      ("\n   A_ref: ".data) ++ e.answer_ref ++
      ("\n   Match: ".data) ++ e.match_type ++
      ("\n\n".data) ++ exportGo (i + 1) es

/-- The text written by `export_text(matched, path)`
(`enumerate(matched, 1)` starts numbering at 1). -/
def export_text (matched : List MatchedEntry) : List Char := exportGo 1 matched

/-- CPython `str.splitlines`: cut at every line-boundary character,
treating `\r\n` as a single boundary; a trailing boundary does not
produce a final empty line.  `acc` holds the current line reversed. -/
def pySplitlinesGo : List Char → List Char → List (List Char)
  | acc, [] => if acc.isEmpty then [] else [acc.reverse]
  | acc, '\r' :: '\n' :: rest => acc.reverse :: pySplitlinesGo [] rest
  | acc, c :: rest =>
      if isPyLineBreak c then acc.reverse :: pySplitlinesGo [] rest
      else pySplitlinesGo (c :: acc) rest

/-- Python `str.splitlines()`. -/
def pySplitlines (s : List Char) : List (List Char) := pySplitlinesGo [] s

/-- Case-insensitive literal-prefix matcher (for the literal parts of
the `re` patterns under `re.IGNORECASE`; ASCII folding, which covers
every character these patterns contain): on success returns the rest of
the input.  The pattern is given lower-case. -/
def ciPrefixDrop : List Char → List Char → Option (List Char)
  | [], s => some s
  | _ :: _, [] => none
  | p :: ps, d :: ds => if d.toLower = p then ciPrefixDrop ps ds else none

/-- `re.match(r"^\s*(A_ref|Match)\s*:", line, re.IGNORECASE)` as a
Boolean: the line-removal test of `parse_ref_text`. -/
def isRemovedLine (line : List Char) : Bool :=
  match ciPrefixDrop ("a_ref".data) (line.dropWhile isPySpace) with
  | some rest => (rest.dropWhile isPySpace).head? == some ':'
  | none =>
      match ciPrefixDrop ("match".data) (line.dropWhile isPySpace) with
      | some rest => (rest.dropWhile isPySpace).head? == some ':'
      | none => false

/-- Python `"\n".join(lines)`. -/
def joinNL : List (List Char) → List Char
  | [] => []
  | [l] => l
  | l :: ls => l ++ '\n' :: joinNL ls

/-- The regex class `\d` (restricted, like the rest of the model, to
ASCII digits). -/
def isDigitCh (c : Char) : Bool :=
  let n := c.toNat
  48 ≤ n && n ≤ 57

/-- Index of the last `\n` in a list, if any. -/
def lastNLIdx : List Char → Option Nat
  | [] => none
  | c :: rest =>
      match lastNLIdx rest with
      | some i => some (i + 1)
      | none => if c = '\n' then some 0 else none

/-- Third stage of the separator match: `w1` is the whitespace run after
the initial `\n` and `r1` what follows it; `d` is the greedy digit run
at the head of `r1`.  The first regex alternative requires `d` nonempty
followed by a literal `.` and then takes a final greedy whitespace run;
the second alternative consumes `w1` up to and including its last `\n`. -/
def sepAfter3 (w1 r1 d : List Char) : Option Nat :=
  if d ≠ [] ∧ (r1.drop d.length).head? = some '.' then
    some (1 + w1.length + d.length + 1 +
      ((r1.drop (d.length + 1)).takeWhile isPySpace).length)
  else
    match lastNLIdx w1 with
    | some i => some (1 + i + 1)
    | none => none

/-- Separator match after the anchoring `\n`. -/
def sepAfterNL (rest : List Char) : Option Nat :=
  sepAfter3 (rest.takeWhile isPySpace) (rest.drop (rest.takeWhile isPySpace).length)
    ((rest.drop (rest.takeWhile isPySpace).length).takeWhile isDigitCh)

/-- Length of the match of `(?:\n\s*\d+\.\s*)|\n\s*\n` at the head of
`s`, if any (the split pattern of `parse_ref_text`).  Both alternatives
are anchored on a literal `\n`; the first then takes greedy `\s*`,
`\d+`, `.`, `\s*` (no backtracking is possible: the character classes
at each juncture are disjoint), the second consumes the whitespace run
up to and including its last `\n`. -/
def sepMatchLen (s : List Char) : Option Nat :=
  match s with
  | '\n' :: rest => sepAfterNL rest
  | _ => none

/-- `re.split` driver: scan left to right; at a match emit the piece
accumulated so far (reversed in `acc`) and skip the match (`skip`
counts the characters of the current match still to be consumed —
every match is at least one character, so one is consumed on the spot). -/
def pySplitGo (acc : List Char) (skip : Nat) : List Char → List (List Char)
  | [] => [acc.reverse]
  | c :: rest =>
      match skip with
      | n + 1 => pySplitGo acc n rest
      | 0 =>
          match sepMatchLen (c :: rest) with
          | some L => acc.reverse :: pySplitGo [] (L - 1) rest
          | none => pySplitGo (c :: acc) 0 rest

/-- `re.search(tag + r":\s*(.+)", block, re.IGNORECASE | re.DOTALL)`
for a one-letter tag (`Q` or `A`): find the first case-insensitive
occurrence of the tag letter followed by `:` after which at least one
character remains; `\s*` is greedy, and when everything after the colon
is whitespace it backtracks by one so that `(.+)` (DOTALL: to the end
of the block) captures the last whitespace character. -/
def searchTagCapture (tag : Char) : List Char → Option (List Char)
  | [] => none
  | c :: rest =>
      if c.toLower = tag ∧ rest.head? = some ':' then
        let r := rest.tail
        let w := r.takeWhile isPySpace
        let g := r.drop w.length
        if g ≠ [] then some g
        else
          match w.getLast? with
          | some cw => some [cw]
          | none => searchTagCapture tag rest
      else searchTagCapture tag rest

/-- The character class `[a-z0-9\-]` under `re.IGNORECASE` (which
extends the letter range to upper case). -/
def isRefChar (c : Char) : Bool :=
  let n := c.toNat
  (97 ≤ n && n ≤ 122) || (65 ≤ n && n ≤ 90) || (48 ≤ n && n ≤ 57) || n == 45

/-- `re.search(r"Q_ref:\s*([a-z0-9\-]+)", block, re.IGNORECASE)`:
first occurrence of the literal `Q_ref:` whose following whitespace is
succeeded by at least one class character; captures the maximal class
run. -/
def searchQrefCapture : List Char → Option (List Char)
  | [] => none
  | c :: rest =>
      match ciPrefixDrop ("q_ref:".data) (c :: rest) with
      | some r =>
          let g := (r.drop (r.takeWhile isPySpace).length).takeWhile isRefChar
          if g ≠ [] then some g
          else searchQrefCapture rest
      | none => searchQrefCapture rest

/-- An entry recovered by `parse_ref_text`:
`{"ref": ..., "question": ..., "answer": ...}`. -/
structure ParsedEntry where
  ref : List Char
  question : List Char
  answer : List Char
deriving DecidableEq

/-- One iteration of the `for block in blocks` loop of
`parse_ref_text`.  State: `(entries, current_q, current_ref,
current_a)`. -/
def parseBlockStep (st : List ParsedEntry × List Char × List Char × List Char)
    (block : List Char) : List ParsedEntry × List Char × List Char × List Char :=
  if (pyStrip block).isEmpty then st
  else
    let question := match searchTagCapture 'q' block with
      | some g => pyStrip g
      | none => st.2.1
    let q_ref := match searchQrefCapture block with
      | some g => pyStrip g
      | none => st.2.2.1
    let answer := match searchTagCapture 'a' block with
      | some g => pyStrip g
      | none => st.2.2.2
    if q_ref ≠ [] ∧ answer ≠ [] then
      (st.1 ++ [⟨q_ref, question, answer⟩], [], [], [])
    else if q_ref = [] then
      (st.1, st.2.1 ++ ' ' :: question, st.2.2.1, st.2.2.2)
    else
      (st.1, st.2.1, st.2.2.1, st.2.2.2 ++ ' ' :: answer)

/-- `build_user_json.parse_ref_text`, minus the file read. -/
def parse_ref_text (text : List Char) : List ParsedEntry :=
  let stripped := pyStrip text
  let clean := joinNL ((pySplitlines stripped).filter (fun l => ! isRemovedLine l))
  let blocks := pySplitGo [] 0 clean
  (blocks.foldl parseBlockStep ([], [], [], [])).1

/-- Does `s` contain a case-insensitive occurrence of the tag letter
immediately followed by `:` (the shape `re.search(tag + ":...")`
locks onto)? -/
def hasCITag (tag : Char) : List Char → Bool
  | [] => false
  | c :: rest => (decide (c.toLower = tag) && rest.head? == some ':') || hasCITag tag rest

/-- Does `s` contain a case-insensitive occurrence of the (lower-case)
literal `pat`? -/
def hasCIStr (pat : List Char) : List Char → Bool
  | [] => false
  | c :: rest => (ciPrefixDrop pat (c :: rest)).isSome || hasCIStr pat rest

/-- Well-formedness of a `MatchedEntry` for the round-trip analysis:
the shape `match_questions` itself guarantees for its outputs (single
reference; `EXACT`/`FUZZY` kind), questions and answers that are
nonempty single-line strings equal to their own strip (as
`parse_text_responses` produces), a reference over the character class
the parser's regex can recover, and a question free of the `a:` and
`q_ref:` tag shapes that would derail the parser's unanchored
case-insensitive searches. -/
def entryWF (e : MatchedEntry) : Prop :=
  e.question ≠ [] ∧ e.answer ≠ [] ∧ e.question_ref ≠ [] ∧
  (∀ c ∈ e.question, isPyLineBreak c = false) ∧
  (∀ c ∈ e.answer, isPyLineBreak c = false) ∧
  pyStrip e.question = e.question ∧
  pyStrip e.answer = e.answer ∧
  (∀ c ∈ e.question_ref, isRefChar c = true) ∧
  e.answer_ref = e.question_ref ∧
  (e.match_type = ("EXACT".data) ∨ e.match_type = ("FUZZY".data)) ∧
  hasCITag 'a' e.question = false ∧
  hasCIStr ("q_ref:".data) e.question = false

instance (e : MatchedEntry) : Decidable (entryWF e) := by
  unfold entryWF
  infer_instance

/-! ## Round-trip proof infrastructure -/

lemma dropWhile_eq_self_head {p : Char → Bool} {l : List Char}
    (h : l.dropWhile p = l) : ∀ c, l.head? = some c → p c = false := by
  intro c hc
  cases l with
  | nil => simp at hc
  | cons d t =>
      cases hc
      by_cases hp : p c
      · rw [List.dropWhile_cons_of_pos hp] at h
        have hlen := congrArg List.length h
        have := List.length_le_of_sublist (List.dropWhile_sublist (l := t) p)
        simp at hlen
        omega
      · exact Bool.of_not_eq_true hp

lemma pyLStrip_of_strip_eq {q : List Char} (h : pyStrip q = q) : pyLStrip q = q := by
  unfold pyStrip pyRStrip at h
  have h1 : (pyLStrip q).length ≤ q.length := by
    unfold pyLStrip
    exact List.length_le_of_sublist (List.dropWhile_sublist _)
  have h2 := congrArg List.length h
  simp only [List.length_reverse] at h2
  have h3 : ((pyLStrip q).reverse.dropWhile isPySpace).length ≤ (pyLStrip q).length := by
    have := List.length_le_of_sublist
      (List.dropWhile_sublist (l := (pyLStrip q).reverse) isPySpace)
    simpa using this
  have h4 : (pyLStrip q).length = q.length := by omega
  exact List.Sublist.eq_of_length (List.dropWhile_sublist _) h4

lemma pyRStrip_of_strip_eq {q : List Char} (h : pyStrip q = q) : pyRStrip q = q := by
  have hl := pyLStrip_of_strip_eq h
  unfold pyStrip at h
  rw [hl] at h
  exact h

lemma head_not_space_of_strip_eq {q : List Char} (h : pyStrip q = q) :
    ∀ c, q.head? = some c → isPySpace c = false := by
  have hl := pyLStrip_of_strip_eq h
  exact dropWhile_eq_self_head hl

lemma getLast_not_space_of_strip_eq {q : List Char} (h : pyStrip q = q) :
    ∀ c, q.getLast? = some c → isPySpace c = false := by
  have hr := pyRStrip_of_strip_eq h
  unfold pyRStrip at hr
  have hrev : q.reverse.dropWhile isPySpace = q.reverse := by
    have := congrArg List.reverse hr
    simpa using this
  intro c hc
  apply dropWhile_eq_self_head hrev
  rw [List.head?_reverse]
  exact hc

lemma pyRStrip_append_ws {x w : List Char} (hw : ∀ c ∈ w, isPySpace c = true) :
    pyRStrip (x ++ w) = pyRStrip x := by
  unfold pyRStrip
  rw [List.reverse_append, List.dropWhile_append_of_pos]
  intro c hc
  exact hw c (List.mem_reverse.mp hc)

lemma pyRStrip_append_nonspace {x : List Char} {c : Char}
    (hc : isPySpace c = false) : pyRStrip (x ++ [c]) = x ++ [c] := by
  unfold pyRStrip
  rw [List.reverse_append]
  simp only [List.reverse_cons, List.reverse_nil, List.nil_append, List.singleton_append]
  rw [List.dropWhile_cons_of_neg (by simp [hc])]
  simp

lemma pyLStrip_cons_nonspace {c : Char} {s : List Char}
    (hc : isPySpace c = false) : pyLStrip (c :: s) = c :: s := by
  unfold pyLStrip
  rw [List.dropWhile_cons_of_neg (by simp [hc])]

/-- Each line followed by a newline character. -/
def unlinesT : List (List Char) → List Char
  | [] => []
  | l :: ls => l ++ '\n' :: unlinesT ls

lemma pySplitlinesGo_cons_nonbreak {acc : List Char} {c : Char} {s : List Char}
    (hc : isPyLineBreak c = false) :
    pySplitlinesGo acc (c :: s) = pySplitlinesGo (c :: acc) s := by
  have hcr : ¬ c = '\r' := by
    intro h
    rw [h] at hc
    simp [isPyLineBreak] at hc
  conv_lhs => rw [pySplitlinesGo.eq_def]
  split
  · rename_i heq
    cases heq
  · rename_i heq
    injection heq with h1 h2
    exact absurd h1 hcr
  · rename_i heq
    injection heq with h1 h2
    rw [if_neg (by rw [← h1]; simp [hc]), ← h1, ← h2]

lemma pySplitlinesGo_push {acc : List Char} {l s : List Char}
    (hl : ∀ c ∈ l, isPyLineBreak c = false) :
    pySplitlinesGo acc (l ++ s) = pySplitlinesGo (l.reverse ++ acc) s := by
  induction l generalizing acc with
  | nil => simp
  | cons c t ih =>
      rw [List.cons_append,
        pySplitlinesGo_cons_nonbreak (hl c (List.mem_cons_self _ _)),
        ih (fun c hc => hl c (List.mem_cons_of_mem _ hc))]
      simp

lemma pySplitlinesGo_newline {acc : List Char} {s : List Char} :
    pySplitlinesGo acc ('\n' :: s) = acc.reverse :: pySplitlinesGo [] s := by
  conv_lhs => rw [pySplitlinesGo.eq_def]
  split
  · rename_i heq
    cases heq
  · rename_i heq
    injection heq with h1 h2
    exact absurd h1 (by decide)
  · rename_i heq
    injection heq with h1 h2
    rw [if_pos (by rw [← h1]; decide), ← h2]

lemma pySplitlines_unlines (ls : List (List Char)) (extra : List Char)
    (hls : ∀ l ∈ ls, ∀ c ∈ l, isPyLineBreak c = false)
    (hextra : ∀ c ∈ extra, isPyLineBreak c = false) :
    pySplitlines (unlinesT ls ++ extra) =
      ls ++ (if extra.isEmpty then [] else [extra]) := by
  unfold pySplitlines
  induction ls with
  | nil =>
      simp only [unlinesT, List.nil_append]
      rw [← List.append_nil extra, @pySplitlinesGo_push [] extra [] hextra]
      rw [pySplitlinesGo]
      cases extra with
      | nil => simp
      | cons c t => simp
  | cons l ls ih =>
      have h1 : ∀ c ∈ l, isPyLineBreak c = false := hls l (List.mem_cons_self _ _)
      rw [unlinesT]
      rw [List.append_assoc, List.cons_append]
      rw [@pySplitlinesGo_push [] l _ h1]
      rw [pySplitlinesGo_newline]
      simp only [List.append_nil, List.reverse_reverse]
      rw [ih (fun l hl => hls l (List.mem_cons_of_mem _ hl))]
      simp

/-! ## The exported text, line by line -/

/-- First line of the `i`-th exported record. -/
def line1 (i : Nat) (e : MatchedEntry) : List Char :=
  decRepr i ++ (". Q: ".data) ++ e.question

/-- Second line of an exported record. -/
def line2 (e : MatchedEntry) : List Char := ("   Q_ref: ".data) ++ e.question_ref

/-- Third line of an exported record. -/
def line3 (e : MatchedEntry) : List Char := ("   A: ".data) ++ e.answer

/-- Fourth line of an exported record. -/
def line4 (e : MatchedEntry) : List Char := ("   A_ref: ".data) ++ e.answer_ref

/-- Fifth line of an exported record. -/
def line5 (e : MatchedEntry) : List Char := ("   Match: ".data) ++ e.match_type

/-- The five lines of one record joined by newlines (no trailing
newline). -/
def coreFive (i : Nat) (e : MatchedEntry) : List Char :=
  line1 i e ++ '\n' :: line2 e ++ '\n' :: line3 e ++ '\n' :: line4 e ++
    '\n' :: line5 e

/-- The exported text minus its trailing blank-line pair: records
separated by `\n\n`. -/
def bodyText : Nat → List MatchedEntry → List Char
  | _, [] => []
  | i, [e] => coreFive i e
  | i, e :: es => coreFive i e ++ ("\n\n".data) ++ bodyText (i + 1) es

/-- The lines of the exported text after the final strip: five lines
per record with a blank separator line between records. -/
def linesNoTrail : Nat → List MatchedEntry → List (List Char)
  | _, [] => []
  | i, [e] => [line1 i e, line2 e, line3 e, line4 e, line5 e]
  | i, e :: es =>
      line1 i e :: line2 e :: line3 e :: line4 e :: line5 e :: [] ::
        linesNoTrail (i + 1) es

lemma exportGo_body : ∀ (es : List MatchedEntry) (i : Nat) (e : MatchedEntry),
    exportGo i (e :: es) = bodyText i (e :: es) ++ ("\n\n".data) := by
  intro es
  induction es with
  | nil =>
      intro i e
      rw [exportGo, exportGo, bodyText]
      unfold coreFive line1 line2 line3 line4 line5
      have h1 : ("\n   Q_ref: ".data) = '\n' :: ("   Q_ref: ".data) := rfl
      have h2 : ("\n   A: ".data) = '\n' :: ("   A: ".data) := rfl
      have h3 : ("\n   A_ref: ".data) = '\n' :: ("   A_ref: ".data) := rfl
      have h4 : ("\n   Match: ".data) = '\n' :: ("   Match: ".data) := rfl
      rw [h1, h2, h3, h4]
      simp [List.append_assoc]
  | cons e2 es ih =>
      intro i e
      rw [exportGo, ih (i + 1) e2]
      have hb : bodyText i (e :: e2 :: es) =
          coreFive i e ++ ("\n\n".data) ++ bodyText (i + 1) (e2 :: es) := rfl
      rw [hb]
      unfold coreFive line1 line2 line3 line4 line5
      have h1 : ("\n   Q_ref: ".data) = '\n' :: ("   Q_ref: ".data) := rfl
      have h2 : ("\n   A: ".data) = '\n' :: ("   A: ".data) := rfl
      have h3 : ("\n   A_ref: ".data) = '\n' :: ("   A_ref: ".data) := rfl
      have h4 : ("\n   Match: ".data) = '\n' :: ("   Match: ".data) := rfl
      rw [h1, h2, h3, h4]
      simp [List.append_assoc]

lemma decReprAux_digits : ∀ fuel n, ∀ c ∈ decReprAux fuel n, isDigitCh c = true := by
  intro fuel
  induction fuel with
  | zero => intro n c hc; simp [decReprAux] at hc
  | succ fuel ih =>
      intro n c hc
      rw [decReprAux] at hc
      by_cases hn : n < 10
      · rw [if_pos hn] at hc
        rcases List.mem_singleton.mp hc with rfl
        interval_cases n <;> decide
      · rw [if_neg hn] at hc
        rcases List.mem_append.mp hc with hc | hc
        · exact ih _ c hc
        · rcases List.mem_singleton.mp hc with rfl
          have hm : n % 10 < 10 := Nat.mod_lt _ (by omega)
          set m := n % 10 with hmdef
          interval_cases m <;> decide

lemma decRepr_digits (n : Nat) : ∀ c ∈ decRepr n, isDigitCh c = true :=
  decReprAux_digits (n + 1) n

lemma decRepr_ne_nil (n : Nat) : decRepr n ≠ [] := by
  unfold decRepr
  rw [decReprAux]
  by_cases hn : n < 10
  · rw [if_pos hn]; simp
  · rw [if_neg hn]; simp

lemma digit_not_space {c : Char} (h : isDigitCh c = true) : isPySpace c = false := by
  unfold isDigitCh at h
  unfold isPySpace
  simp only [Bool.and_eq_true, decide_eq_true_eq] at h
  simp only [Bool.or_eq_false_iff, Bool.and_eq_false_iff]
  refine ⟨⟨⟨⟨⟨⟨⟨⟨⟨⟨⟨?_, ?_⟩, ?_⟩, ?_⟩, ?_⟩, ?_⟩, ?_⟩, ?_⟩, ?_⟩, ?_⟩, ?_⟩, ?_⟩ <;>
    simp <;> omega

lemma digit_not_break {c : Char} (h : isDigitCh c = true) : isPyLineBreak c = false := by
  unfold isDigitCh at h
  unfold isPyLineBreak
  simp only [Bool.and_eq_true, decide_eq_true_eq] at h
  simp only [Bool.or_eq_false_iff, Bool.and_eq_false_iff]
  refine ⟨⟨⟨⟨?_, ?_⟩, ?_⟩, ?_⟩, ?_⟩ <;> simp <;> omega

lemma not_break_ne_nl {c : Char} (h : isPyLineBreak c = false) : c ≠ '\n' := by
  intro hc
  rw [hc] at h
  simp [isPyLineBreak] at h

lemma refChar_not_space {c : Char} (h : isRefChar c = true) : isPySpace c = false := by
  unfold isRefChar at h
  unfold isPySpace
  simp only [Bool.or_eq_true, Bool.and_eq_true, decide_eq_true_eq, beq_iff_eq] at h
  simp only [Bool.or_eq_false_iff, Bool.and_eq_false_iff]
  refine ⟨⟨⟨⟨⟨⟨⟨⟨⟨⟨⟨?_, ?_⟩, ?_⟩, ?_⟩, ?_⟩, ?_⟩, ?_⟩, ?_⟩, ?_⟩, ?_⟩, ?_⟩, ?_⟩ <;>
    simp <;> omega

lemma refChar_not_break {c : Char} (h : isRefChar c = true) : isPyLineBreak c = false := by
  unfold isRefChar at h
  unfold isPyLineBreak
  simp only [Bool.or_eq_true, Bool.and_eq_true, decide_eq_true_eq, beq_iff_eq] at h
  simp only [Bool.or_eq_false_iff, Bool.and_eq_false_iff]
  refine ⟨⟨⟨⟨?_, ?_⟩, ?_⟩, ?_⟩, ?_⟩ <;> simp <;> omega

lemma bodyText_cons (i : Nat) (e : MatchedEntry) (es : List MatchedEntry) :
    ∃ rest, bodyText i (e :: es) = coreFive i e ++ rest := by
  cases es with
  | nil => exact ⟨[], by rw [bodyText, List.append_nil]⟩
  | cons e2 es => exact ⟨("\n\n".data) ++ bodyText (i + 1) (e2 :: es), by
      rw [show bodyText i (e :: e2 :: es) =
        coreFive i e ++ ("\n\n".data) ++ bodyText (i + 1) (e2 :: es) from rfl]
      rw [List.append_assoc]⟩

lemma bodyText_head (i : Nat) (e : MatchedEntry) (es : List MatchedEntry) :
    ∃ d t, bodyText i (e :: es) = d :: t ∧ isPySpace d = false := by
  obtain ⟨rest, hrest⟩ := bodyText_cons i e es
  cases hd : decRepr i with
  | nil => exact absurd hd (decRepr_ne_nil i)
  | cons d ds =>
      refine ⟨d, ds ++ (". Q: ".data) ++ e.question ++ '\n' :: line2 e ++ '\n' ::
        line3 e ++ '\n' :: line4 e ++ '\n' :: line5 e ++ rest, ?_, ?_⟩
      · rw [hrest]
        unfold coreFive line1
        rw [hd]
        simp [List.append_assoc]
      · exact digit_not_space (decRepr_digits i d (hd ▸ List.mem_cons_self d ds))

lemma match_type_last {e : MatchedEntry} (hwf : entryWF e) :
    ∃ W c, e.match_type = W ++ [c] ∧ isPySpace c = false := by
  rcases hwf.2.2.2.2.2.2.2.2.2.1 with h | h
  · exact ⟨("EXAC".data), 'T', by rw [h]; rfl, by decide⟩
  · exact ⟨("FUZZ".data), 'Y', by rw [h]; rfl, by decide⟩

lemma bodyText_last : ∀ (es : List MatchedEntry) (i : Nat) (e : MatchedEntry),
    (∀ x ∈ e :: es, entryWF x) →
    ∃ W c, bodyText i (e :: es) = W ++ [c] ∧ isPySpace c = false := by
  intro es
  induction es with
  | nil =>
      intro i e hwf
      obtain ⟨W, c, hW, hc⟩ := match_type_last (hwf e (List.mem_cons_self _ _))
      refine ⟨line1 i e ++ '\n' :: line2 e ++ '\n' :: line3 e ++ '\n' :: line4 e ++
        '\n' :: ("   Match: ".data) ++ W, c, ?_, hc⟩
      rw [bodyText]
      unfold coreFive line5
      rw [hW]
      simp [List.append_assoc]
  | cons e2 es ih =>
      intro i e hwf
      obtain ⟨W, c, hW, hc⟩ := ih (i + 1) e2
        (fun x hx => hwf x (List.mem_cons_of_mem _ hx))
      refine ⟨coreFive i e ++ ("\n\n".data) ++ W, c, ?_, hc⟩
      rw [show bodyText i (e :: e2 :: es) =
        coreFive i e ++ ("\n\n".data) ++ bodyText (i + 1) (e2 :: es) from rfl]
      rw [hW]
      simp [List.append_assoc]

lemma strip_body_append (X : List Char)
    (hh : ∃ d t, X = d :: t ∧ isPySpace d = false)
    (hl : ∃ W c, X = W ++ [c] ∧ isPySpace c = false) :
    pyStrip (X ++ ("\n\n".data)) = X := by
  obtain ⟨d, t, hdt, hd⟩ := hh
  obtain ⟨W, c, hWc, hc⟩ := hl
  unfold pyStrip
  have hlstrip : pyLStrip (X ++ ("\n\n".data)) = X ++ ("\n\n".data) := by
    rw [hdt, List.cons_append]
    exact pyLStrip_cons_nonspace hd
  rw [hlstrip]
  have h1 : pyRStrip (X ++ ("\n\n".data)) = pyRStrip X := by
    apply pyRStrip_append_ws
    intro x hx
    rcases List.mem_cons.mp hx with rfl | hx
    · decide
    · rcases List.mem_singleton.mp hx with rfl
      decide
  rw [h1, hWc]
  exact pyRStrip_append_nonspace hc

/-- After stripping, the exported text is exactly its body (records
separated by blank lines, no trailing blank). -/
lemma strip_export (i : Nat) (e : MatchedEntry) (es : List MatchedEntry)
    (hwf : ∀ x ∈ e :: es, entryWF x) :
    pyStrip (exportGo i (e :: es)) = bodyText i (e :: es) := by
  rw [exportGo_body]
  exact strip_body_append _ (bodyText_head i e es) (bodyText_last es i e hwf)

lemma line1_nobreak {i : Nat} {e : MatchedEntry} (hwf : entryWF e) :
    ∀ c ∈ line1 i e, isPyLineBreak c = false := by
  intro c hc
  unfold line1 at hc
  rcases List.mem_append.mp hc with hc | hc
  · rcases List.mem_append.mp hc with hc | hc
    · exact digit_not_break (decRepr_digits i c hc)
    · fin_cases hc <;> decide
  · exact hwf.2.2.2.1 c hc

lemma line2_nobreak {e : MatchedEntry} (hwf : entryWF e) :
    ∀ c ∈ line2 e, isPyLineBreak c = false := by
  intro c hc
  unfold line2 at hc
  rcases List.mem_append.mp hc with hc | hc
  · fin_cases hc <;> decide
  · exact refChar_not_break (hwf.2.2.2.2.2.2.2.1 c hc)

lemma line3_nobreak {e : MatchedEntry} (hwf : entryWF e) :
    ∀ c ∈ line3 e, isPyLineBreak c = false := by
  intro c hc
  unfold line3 at hc
  rcases List.mem_append.mp hc with hc | hc
  · fin_cases hc <;> decide
  · exact hwf.2.2.2.2.1 c hc

lemma line4_nobreak {e : MatchedEntry} (hwf : entryWF e) :
    ∀ c ∈ line4 e, isPyLineBreak c = false := by
  intro c hc
  unfold line4 at hc
  rcases List.mem_append.mp hc with hc | hc
  · fin_cases hc <;> decide
  · rw [hwf.2.2.2.2.2.2.2.2.1] at hc
    exact refChar_not_break (hwf.2.2.2.2.2.2.2.1 c hc)

lemma line5_nobreak {e : MatchedEntry} (hwf : entryWF e) :
    ∀ c ∈ line5 e, isPyLineBreak c = false := by
  intro c hc
  unfold line5 at hc
  rcases List.mem_append.mp hc with hc | hc
  · fin_cases hc <;> decide
  · rcases hwf.2.2.2.2.2.2.2.2.2.1 with h | h <;>
      · rw [h] at hc
        fin_cases hc <;> decide

lemma go_coreFive {i : Nat} {e : MatchedEntry} (hwf : entryWF e) (s : List Char) :
    pySplitlinesGo [] (coreFive i e ++ s) =
      line1 i e :: line2 e :: line3 e :: line4 e ::
        pySplitlinesGo (line5 e).reverse s := by
  unfold coreFive
  have hassoc : (line1 i e ++ '\n' :: line2 e ++ '\n' :: line3 e ++ '\n' :: line4 e ++
      '\n' :: line5 e) ++ s =
      line1 i e ++ '\n' :: (line2 e ++ '\n' :: (line3 e ++ '\n' :: (line4 e ++
      '\n' :: (line5 e ++ s)))) := by
    simp [List.append_assoc]
  rw [hassoc]
  rw [pySplitlinesGo_push (line1_nobreak hwf), List.append_nil,
    pySplitlinesGo_newline, List.reverse_reverse]
  rw [pySplitlinesGo_push (line2_nobreak hwf), List.append_nil,
    pySplitlinesGo_newline, List.reverse_reverse]
  rw [pySplitlinesGo_push (line3_nobreak hwf), List.append_nil,
    pySplitlinesGo_newline, List.reverse_reverse]
  rw [pySplitlinesGo_push (line4_nobreak hwf), List.append_nil,
    pySplitlinesGo_newline, List.reverse_reverse]
  rw [pySplitlinesGo_push (line5_nobreak hwf), List.append_nil]

lemma line5_ne_nil (e : MatchedEntry) : line5 e ≠ [] := by
  unfold line5
  simp

lemma splitlines_body : ∀ (es : List MatchedEntry) (i : Nat) (e : MatchedEntry),
    (∀ x ∈ e :: es, entryWF x) →
    pySplitlines (bodyText i (e :: es)) = linesNoTrail i (e :: es) := by
  intro es
  induction es with
  | nil =>
      intro i e hwf
      unfold pySplitlines
      rw [bodyText, ← List.append_nil (coreFive i e),
        go_coreFive (hwf e (List.mem_cons_self _ _))]
      rw [pySplitlinesGo]
      rw [if_neg (by
        simp only [List.isEmpty_eq_true, List.reverse_eq_nil_iff]
        exact line5_ne_nil e)]
      rw [List.reverse_reverse]
      rfl
  | cons e2 es ih =>
      intro i e hwf
      unfold pySplitlines
      rw [show bodyText i (e :: e2 :: es) =
        coreFive i e ++ ("\n\n".data) ++ bodyText (i + 1) (e2 :: es) from rfl]
      rw [List.append_assoc]
      rw [go_coreFive (hwf e (List.mem_cons_self _ _))]
      have h2 : ("\n\n".data) ++ bodyText (i + 1) (e2 :: es) =
          '\n' :: '\n' :: bodyText (i + 1) (e2 :: es) := rfl
      rw [h2, pySplitlinesGo_newline, List.reverse_reverse, pySplitlinesGo_newline]
      have ih2 := ih (i + 1) e2 (fun x hx => hwf x (List.mem_cons_of_mem _ hx))
      unfold pySplitlines at ih2
      rw [ih2]
      rfl

/-! ## Line removal and rejoining -/

/-- The lines that survive the `A_ref`/`Match` removal. -/
def keptLines : Nat → List MatchedEntry → List (List Char)
  | _, [] => []
  | i, [e] => [line1 i e, line2 e, line3 e]
  | i, e :: es => line1 i e :: line2 e :: line3 e :: [] :: keptLines (i + 1) es

/-- First three lines of one record joined by newlines. -/
def coreThree (i : Nat) (e : MatchedEntry) : List Char :=
  line1 i e ++ '\n' :: line2 e ++ '\n' :: line3 e

/-- The `clean_text` of `parse_ref_text` on an exported file. -/
def cleanText : Nat → List MatchedEntry → List Char
  | _, [] => []
  | i, [e] => coreThree i e
  | i, e :: es => coreThree i e ++ '\n' :: '\n' :: cleanText (i + 1) es

lemma toLower_of_digit {d : Char} (h : isDigitCh d = true) : d.toLower = d := by
  unfold isDigitCh at h
  simp only [Bool.and_eq_true, decide_eq_true_eq] at h
  unfold Char.toLower
  rw [if_neg]
  simp only [ge_iff_le, not_and, not_le]
  intro h65
  omega

lemma isRemovedLine_digit {d : Char} {rest : List Char} (h : isDigitCh d = true) :
    isRemovedLine (d :: rest) = false := by
  unfold isRemovedLine
  have hns : ¬ isPySpace d = true := by
    rw [digit_not_space h]
    simp
  rw [List.dropWhile_cons_of_neg hns]
  have hca : ciPrefixDrop ("a_ref".data) (d :: rest) = none := by
    have : ("a_ref".data) = 'a' :: ("_ref".data) := rfl
    rw [this, ciPrefixDrop]
    rw [if_neg]
    rw [toLower_of_digit h]
    unfold isDigitCh at h
    simp only [Bool.and_eq_true, decide_eq_true_eq] at h
    intro heq
    have := congrArg Char.toNat heq
    simp at this
    omega
  rw [hca]
  have hcm : ciPrefixDrop ("match".data) (d :: rest) = none := by
    have : ("match".data) = 'm' :: ("atch".data) := rfl
    rw [this, ciPrefixDrop]
    rw [if_neg]
    rw [toLower_of_digit h]
    unfold isDigitCh at h
    simp only [Bool.and_eq_true, decide_eq_true_eq] at h
    intro heq
    have := congrArg Char.toNat heq
    simp at this
    omega
  rw [hcm]

lemma isRemovedLine_line1 {i : Nat} {e : MatchedEntry} :
    isRemovedLine (line1 i e) = false := by
  cases hd : decRepr i with
  | nil => exact absurd hd (decRepr_ne_nil i)
  | cons d ds =>
      have h1 : line1 i e = d :: (ds ++ (". Q: ".data) ++ e.question) := by
        unfold line1
        rw [hd]
        simp [List.append_assoc]
      rw [h1]
      exact isRemovedLine_digit (decRepr_digits i d (hd ▸ List.mem_cons_self d ds))

lemma isRemovedLine_line2 {e : MatchedEntry} : isRemovedLine (line2 e) = false := by
  unfold line2 isRemovedLine
  have h : ("   Q_ref: ".data) ++ e.question_ref =
      ' ' :: ' ' :: ' ' :: 'Q' :: (("_ref: ".data) ++ e.question_ref) := rfl
  rw [h]
  rw [List.dropWhile_cons_of_pos (by decide), List.dropWhile_cons_of_pos (by decide),
    List.dropWhile_cons_of_pos (by decide), List.dropWhile_cons_of_neg (by decide)]
  have hca : ciPrefixDrop ("a_ref".data) ('Q' :: (("_ref: ".data) ++ e.question_ref)) =
      none := by
    rw [show ("a_ref".data) = 'a' :: ("_ref".data) from rfl, ciPrefixDrop, if_neg (by decide)]
  have hcm : ciPrefixDrop ("match".data) ('Q' :: (("_ref: ".data) ++ e.question_ref)) =
      none := by
    rw [show ("match".data) = 'm' :: ("atch".data) from rfl, ciPrefixDrop, if_neg (by decide)]
  rw [hca, hcm]

lemma isRemovedLine_line3 {e : MatchedEntry} : isRemovedLine (line3 e) = false := by
  unfold line3 isRemovedLine
  have h : ("   A: ".data) ++ e.answer =
      ' ' :: ' ' :: ' ' :: 'A' :: ':' :: ' ' :: e.answer := rfl
  rw [h]
  rw [List.dropWhile_cons_of_pos (by decide), List.dropWhile_cons_of_pos (by decide),
    List.dropWhile_cons_of_pos (by decide), List.dropWhile_cons_of_neg (by decide)]
  have hca : ciPrefixDrop ("a_ref".data) ('A' :: ':' :: ' ' :: e.answer) = none := by
    rw [show ("a_ref".data) = 'a' :: '_' :: ("ref".data) from rfl]
    rw [ciPrefixDrop, if_pos (by decide), ciPrefixDrop, if_neg (by decide)]
  have hcm : ciPrefixDrop ("match".data) ('A' :: ':' :: ' ' :: e.answer) = none := by
    rw [show ("match".data) = 'm' :: ("atch".data) from rfl, ciPrefixDrop,
      if_neg (by decide)]
  rw [hca, hcm]

lemma isRemovedLine_line4 {e : MatchedEntry} : isRemovedLine (line4 e) = true := by
  unfold line4 isRemovedLine
  have h : ("   A_ref: ".data) ++ e.answer_ref =
      ' ' :: ' ' :: ' ' :: 'A' :: '_' :: 'r' :: 'e' :: 'f' :: ':' :: ' ' ::
        e.answer_ref := rfl
  rw [h]
  rw [List.dropWhile_cons_of_pos (by decide), List.dropWhile_cons_of_pos (by decide),
    List.dropWhile_cons_of_pos (by decide), List.dropWhile_cons_of_neg (by decide)]
  have hca : ciPrefixDrop ("a_ref".data)
      ('A' :: '_' :: 'r' :: 'e' :: 'f' :: ':' :: ' ' :: e.answer_ref) =
      some (':' :: ' ' :: e.answer_ref) := by
    rw [show ("a_ref".data) = 'a' :: '_' :: 'r' :: 'e' :: 'f' :: [] from rfl]
    rw [ciPrefixDrop, if_pos (by decide), ciPrefixDrop, if_pos (by decide),
      ciPrefixDrop, if_pos (by decide), ciPrefixDrop, if_pos (by decide),
      ciPrefixDrop, if_pos (by decide), ciPrefixDrop]
  rw [hca]
  show (((':' :: ' ' :: e.answer_ref).dropWhile isPySpace).head? == some ':') = true
  rw [List.dropWhile_cons_of_neg (by decide)]
  rfl

lemma isRemovedLine_line5 {e : MatchedEntry} : isRemovedLine (line5 e) = true := by
  unfold line5 isRemovedLine
  have h : ("   Match: ".data) ++ e.match_type =
      ' ' :: ' ' :: ' ' :: 'M' :: 'a' :: 't' :: 'c' :: 'h' :: ':' :: ' ' ::
        e.match_type := rfl
  rw [h]
  rw [List.dropWhile_cons_of_pos (by decide), List.dropWhile_cons_of_pos (by decide),
    List.dropWhile_cons_of_pos (by decide), List.dropWhile_cons_of_neg (by decide)]
  have hca : ciPrefixDrop ("a_ref".data)
      ('M' :: 'a' :: 't' :: 'c' :: 'h' :: ':' :: ' ' :: e.match_type) = none := by
    rw [show ("a_ref".data) = 'a' :: ("_ref".data) from rfl, ciPrefixDrop,
      if_neg (by decide)]
  rw [hca]
  have hcm : ciPrefixDrop ("match".data)
      ('M' :: 'a' :: 't' :: 'c' :: 'h' :: ':' :: ' ' :: e.match_type) =
      some (':' :: ' ' :: e.match_type) := by
    rw [show ("match".data) = 'm' :: 'a' :: 't' :: 'c' :: 'h' :: [] from rfl]
    rw [ciPrefixDrop, if_pos (by decide), ciPrefixDrop, if_pos (by decide),
      ciPrefixDrop, if_pos (by decide), ciPrefixDrop, if_pos (by decide),
      ciPrefixDrop, if_pos (by decide), ciPrefixDrop]
  rw [hcm]
  show (((':' :: ' ' :: e.match_type).dropWhile isPySpace).head? == some ':') = true
  rw [List.dropWhile_cons_of_neg (by decide)]
  rfl

lemma filter_linesNoTrail : ∀ (es : List MatchedEntry) (i : Nat) (e : MatchedEntry),
    (linesNoTrail i (e :: es)).filter (fun l => ! isRemovedLine l) =
      keptLines i (e :: es) := by
  intro es
  induction es with
  | nil =>
      intro i e
      rw [linesNoTrail, keptLines]
      simp only [List.filter]
      rw [isRemovedLine_line1, isRemovedLine_line2, isRemovedLine_line3,
        isRemovedLine_line4, isRemovedLine_line5]
      rfl
  | cons e2 es ih =>
      intro i e
      rw [show linesNoTrail i (e :: e2 :: es) =
        line1 i e :: line2 e :: line3 e :: line4 e :: line5 e :: [] ::
          linesNoTrail (i + 1) (e2 :: es) from rfl]
      rw [show keptLines i (e :: e2 :: es) =
        line1 i e :: line2 e :: line3 e :: [] :: keptLines (i + 1) (e2 :: es) from rfl]
      simp only [List.filter]
      rw [isRemovedLine_line1, isRemovedLine_line2, isRemovedLine_line3,
        isRemovedLine_line4, isRemovedLine_line5]
      simp only [Bool.not_false, Bool.not_true]
      have hnil : isRemovedLine ([] : List Char) = false := by decide
      rw [hnil]
      simp only [Bool.not_false]
      rw [ih i.succ e2]

lemma keptLines_shape (i : Nat) (e : MatchedEntry) (es : List MatchedEntry) :
    ∃ ks, keptLines i (e :: es) = line1 i e :: line2 e :: line3 e :: ks := by
  cases es with
  | nil => exact ⟨[], rfl⟩
  | cons e2 es => exact ⟨[] :: keptLines (i + 1) (e2 :: es), rfl⟩

lemma joinNL_cons_cons (a b : List Char) (ls : List (List Char)) :
    joinNL (a :: b :: ls) = a ++ '\n' :: joinNL (b :: ls) := rfl

lemma joinNL_keptLines : ∀ (es : List MatchedEntry) (i : Nat) (e : MatchedEntry),
    joinNL (keptLines i (e :: es)) = cleanText i (e :: es) := by
  intro es
  induction es with
  | nil =>
      intro i e
      rw [show keptLines i [e] = [line1 i e, line2 e, line3 e] from rfl]
      rw [joinNL_cons_cons, joinNL_cons_cons]
      rw [show joinNL [line3 e] = line3 e from rfl]
      rw [show cleanText i [e] = coreThree i e from rfl]
      unfold coreThree
      simp [List.append_assoc]
  | cons e2 es ih =>
      intro i e
      rw [show keptLines i (e :: e2 :: es) =
        line1 i e :: line2 e :: line3 e :: [] :: keptLines (i + 1) (e2 :: es) from rfl]
      obtain ⟨ks, hks⟩ := keptLines_shape (i + 1) e2 es
      rw [hks]
      rw [joinNL_cons_cons, joinNL_cons_cons, joinNL_cons_cons, joinNL_cons_cons]
      rw [← hks, ih (i + 1) e2]
      rw [show cleanText i (e :: e2 :: es) =
        coreThree i e ++ '\n' :: '\n' :: cleanText (i + 1) (e2 :: es) from rfl]
      unfold coreThree
      simp [List.append_assoc]

/-! ## The split stage -/

/-- Blocks after the first: the record's numbered prefix is consumed by
the separator match, so the block starts at `Q:`. -/
def coreTail (e : MatchedEntry) : List Char :=
  ("Q: ".data) ++ e.question ++ '\n' :: line2 e ++ '\n' :: line3 e

/-- The clean text after the first record's `{i}. ` prefix and first
`coreTail`: separators followed by further records. -/
def tailText : Nat → List MatchedEntry → List Char
  | _, [] => []
  | j, e :: es => '\n' :: '\n' :: decRepr j ++ '.' :: ' ' :: (coreTail e ++ tailText (j + 1) es)

lemma cleanText_shape : ∀ (es : List MatchedEntry) (i : Nat) (e : MatchedEntry),
    cleanText i (e :: es) =
      (decRepr i ++ '.' :: ' ' :: []) ++ (coreTail e ++ tailText (i + 1) es) := by
  intro es
  induction es with
  | nil =>
      intro i e
      rw [show cleanText i [e] = coreThree i e from rfl, tailText]
      unfold coreThree coreTail line1
      have h : (". Q: ".data) = '.' :: ' ' :: ("Q: ".data) := rfl
      rw [h]
      simp [List.append_assoc]
  | cons e2 es ih =>
      intro i e
      rw [show cleanText i (e :: e2 :: es) =
        coreThree i e ++ '\n' :: '\n' :: cleanText (i + 1) (e2 :: es) from rfl]
      rw [ih (i + 1) e2, tailText]
      unfold coreThree coreTail line1
      have h : (". Q: ".data) = '.' :: ' ' :: ("Q: ".data) := rfl
      rw [h]
      simp [List.append_assoc]

lemma takeWhile_append_of_all {p : Char → Bool} {y : List Char}
    (hy : ∀ c ∈ y, p c = true) {z : Char} (hz : p z = false) (t : List Char) :
    (y ++ z :: t).takeWhile p = y := by
  induction y with
  | nil =>
      simp only [List.nil_append]
      exact List.takeWhile_cons_of_neg (by simp [hz])
  | cons c y ih =>
      rw [List.cons_append,
        List.takeWhile_cons_of_pos (hy c (List.mem_cons_self _ _)),
        ih (fun c hc => hy c (List.mem_cons_of_mem _ hc))]

lemma sepMatchLen_nonNL {c : Char} {s : List Char} (hc : c ≠ '\n') :
    sepMatchLen (c :: s) = none := by
  rw [sepMatchLen.eq_def]
  split
  · rename_i heq
    injection heq with h1 h2
    exact absurd h1 hc
  · rfl

lemma pySplitGo_cons_nomatch {acc : List Char} {c : Char} {rest : List Char}
    (hc : sepMatchLen (c :: rest) = none) :
    pySplitGo acc 0 (c :: rest) = pySplitGo (c :: acc) 0 rest := by
  rw [pySplitGo]
  show (match sepMatchLen (c :: rest) with
    | some L => acc.reverse :: pySplitGo [] (L - 1) rest
    | none => pySplitGo (c :: acc) 0 rest) = _
  rw [hc]

lemma pySplitGo_cons_match {acc : List Char} {rest : List Char} {L : Nat}
    (hc : sepMatchLen ('\n' :: rest) = some L) :
    pySplitGo acc 0 ('\n' :: rest) = acc.reverse :: pySplitGo [] (L - 1) rest := by
  rw [pySplitGo]
  show (match sepMatchLen ('\n' :: rest) with
    | some L => acc.reverse :: pySplitGo [] (L - 1) rest
    | none => pySplitGo ('\n' :: acc) 0 rest) = _
  rw [hc]

lemma pySplitGo_skip : ∀ (y : List Char) (acc t : List Char),
    pySplitGo acc y.length (y ++ t) = pySplitGo acc 0 t := by
  intro y
  induction y with
  | nil => intro acc t; rfl
  | cons c y ih =>
      intro acc t
      rw [List.cons_append, List.length_cons]
      rw [show pySplitGo acc (y.length + 1) (c :: (y ++ t)) =
        pySplitGo acc y.length (y ++ t) from rfl]
      exact ih acc t

lemma splitGo_chars {x : List Char} (hx : ∀ c ∈ x, c ≠ '\n') :
    ∀ (acc rest : List Char),
    pySplitGo acc 0 (x ++ rest) = pySplitGo (x.reverse ++ acc) 0 rest := by
  induction x with
  | nil => intro acc rest; simp
  | cons c x ih =>
      intro acc rest
      rw [List.cons_append,
        pySplitGo_cons_nomatch (sepMatchLen_nonNL (hx c (List.mem_cons_self _ _))),
        ih (fun c hc => hx c (List.mem_cons_of_mem _ hc))]
      simp

lemma sep_nl_line2 (x : List Char) :
    sepMatchLen ('\n' :: (("   Q_ref: ".data) ++ x)) = none := by
  rw [show sepMatchLen ('\n' :: (("   Q_ref: ".data) ++ x)) =
    sepAfterNL (("   Q_ref: ".data) ++ x) from rfl]
  unfold sepAfterNL
  have hw : (("   Q_ref: ".data) ++ x).takeWhile isPySpace = (' ' :: ' ' :: ' ' :: []) := by
    rw [show ("   Q_ref: ".data) ++ x =
      (' ' :: ' ' :: ' ' :: []) ++ 'Q' :: (("_ref: ".data) ++ x) from rfl]
    exact takeWhile_append_of_all (by decide) (by decide) _
  rw [hw]
  have hd : (("   Q_ref: ".data) ++ x).drop 3 = 'Q' :: (("_ref: ".data) ++ x) := rfl
  rw [show ((' ' :: ' ' :: ' ' :: []) : List Char).length = 3 from rfl, hd]
  rw [List.takeWhile_cons_of_neg (by decide)]
  rfl

lemma sep_nl_line3 (x : List Char) :
    sepMatchLen ('\n' :: (("   A: ".data) ++ x)) = none := by
  rw [show sepMatchLen ('\n' :: (("   A: ".data) ++ x)) =
    sepAfterNL (("   A: ".data) ++ x) from rfl]
  unfold sepAfterNL
  have hw : (("   A: ".data) ++ x).takeWhile isPySpace = (' ' :: ' ' :: ' ' :: []) := by
    rw [show ("   A: ".data) ++ x =
      (' ' :: ' ' :: ' ' :: []) ++ 'A' :: ((": ".data) ++ x) from rfl]
    exact takeWhile_append_of_all (by decide) (by decide) _
  rw [hw]
  have hd : (("   A: ".data) ++ x).drop 3 = 'A' :: ((": ".data) ++ x) := rfl
  rw [show ((' ' :: ' ' :: ' ' :: []) : List Char).length = 3 from rfl, hd]
  rw [List.takeWhile_cons_of_neg (by decide)]
  rfl

lemma wf_q_ne_nl {e : MatchedEntry} (hwf : entryWF e) : ∀ c ∈ e.question, c ≠ '\n' :=
  fun c hc => not_break_ne_nl (hwf.2.2.2.1 c hc)

lemma wf_a_ne_nl {e : MatchedEntry} (hwf : entryWF e) : ∀ c ∈ e.answer, c ≠ '\n' :=
  fun c hc => not_break_ne_nl (hwf.2.2.2.2.1 c hc)

lemma wf_r_ne_nl {e : MatchedEntry} (hwf : entryWF e) :
    ∀ c ∈ e.question_ref, c ≠ '\n' :=
  fun c hc => not_break_ne_nl (refChar_not_break (hwf.2.2.2.2.2.2.2.1 c hc))

/-- The splitter scans straight through one `coreTail` block: no
separator can match inside it. -/
lemma splitGo_coreTail {e : MatchedEntry} (hwf : entryWF e)
    (acc rest : List Char) :
    pySplitGo acc 0 (coreTail e ++ rest) =
      pySplitGo ((coreTail e).reverse ++ acc) 0 rest := by
  have hassoc : coreTail e ++ rest =
      ("Q: ".data) ++ (e.question ++ ('\n' :: ((("   Q_ref: ".data) ++
        (e.question_ref ++ ('\n' :: ((("   A: ".data) ++ (e.answer ++ rest)))))))))
      := by
    unfold coreTail line2 line3
    simp [List.append_assoc]
  rw [hassoc]
  rw [splitGo_chars (by decide)]
  rw [splitGo_chars (wf_q_ne_nl hwf)]
  rw [pySplitGo_cons_nomatch (by
    rw [show ("   Q_ref: ".data) ++ (e.question_ref ++ ('\n' ::
      ((("   A: ".data) ++ (e.answer ++ rest))))) =
      ("   Q_ref: ".data) ++ (e.question_ref ++ '\n' ::
      (("   A: ".data) ++ (e.answer ++ rest))) from by simp]
    exact sep_nl_line2 _)]
  rw [splitGo_chars (by decide)]
  rw [splitGo_chars (wf_r_ne_nl hwf)]
  rw [pySplitGo_cons_nomatch (sep_nl_line3 _)]
  rw [splitGo_chars (by decide)]
  rw [splitGo_chars (wf_a_ne_nl hwf)]
  congr 1
  unfold coreTail line2 line3
  simp [List.reverse_append, List.append_assoc]

/-- At a record boundary `\n\n{j}. Q...` the separator's first
alternative matches, consuming both newlines, the record number, the
dot and the single following space. -/
lemma sepMatchLen_boundary (j : Nat) (t : List Char) :
    sepMatchLen ('\n' :: ('\n' :: (decRepr j ++ '.' :: ' ' :: 'Q' :: t))) =
      some ((decRepr j).length + 4) := by
  rw [show sepMatchLen ('\n' :: ('\n' :: (decRepr j ++ '.' :: ' ' :: 'Q' :: t))) =
    sepAfterNL ('\n' :: (decRepr j ++ '.' :: ' ' :: 'Q' :: t)) from rfl]
  unfold sepAfterNL
  cases hd : decRepr j with
  | nil => exact absurd hd (decRepr_ne_nil j)
  | cons d ds =>
      have hdigits := decRepr_digits j
      rw [hd] at hdigits
      have hw : ('\n' :: (d :: ds ++ '.' :: ' ' :: 'Q' :: t)).takeWhile isPySpace =
          ('\n' :: []) := by
        rw [List.takeWhile_cons_of_pos (by decide), List.cons_append,
          List.takeWhile_cons_of_neg (by
            rw [digit_not_space (hdigits d (List.mem_cons_self _ _))]
            simp)]
      rw [hw]
      rw [show (('\n' :: []) : List Char).length = 1 from rfl]
      have hdrop : ('\n' :: (d :: ds ++ '.' :: ' ' :: 'Q' :: t)).drop 1 =
          d :: ds ++ '.' :: ' ' :: 'Q' :: t := rfl
      rw [hdrop]
      have htake : (d :: ds ++ '.' :: ' ' :: 'Q' :: t).takeWhile isDigitCh =
          d :: ds := by
        exact takeWhile_append_of_all (fun c hc => hdigits c hc) (by decide) _
      rw [htake]
      unfold sepAfter3
      rw [if_pos (by
        constructor
        · simp
        · rw [List.drop_left]
          rfl)]
      have hdrop2 : ((d :: ds) ++ '.' :: ' ' :: 'Q' :: t).drop
          ((d :: ds).length + 1) = ' ' :: 'Q' :: t := by
        have h1 : (d :: ds) ++ '.' :: ' ' :: 'Q' :: t =
            ((d :: ds) ++ ['.']) ++ ' ' :: 'Q' :: t := by simp
        rw [h1]
        have hlen : ((d :: ds) ++ ['.']).length = (d :: ds).length + 1 := by simp
        rw [← hlen, List.drop_left]
      rw [hdrop2]
      rw [List.takeWhile_cons_of_pos (by decide), List.takeWhile_cons_of_neg (by decide)]
      congr 1
      simp
      omega

lemma coreTail_head (e : MatchedEntry) :
    coreTail e = 'Q' :: (':' :: ' ' :: []) ++
      (e.question ++ '\n' :: line2 e ++ '\n' :: line3 e) := by
  unfold coreTail
  rfl

/-- The splitter turns the clean text after the first record prefix
into one block per record. -/
lemma split_rest : ∀ (es : List MatchedEntry) (j : Nat) (e : MatchedEntry)
    (acc : List Char), entryWF e → (∀ x ∈ es, entryWF x) →
    pySplitGo acc 0 (coreTail e ++ tailText j es) =
      (acc.reverse ++ coreTail e) :: es.map coreTail := by
  intro es
  induction es with
  | nil =>
      intro j e acc hwf _
      rw [tailText, List.append_nil, ← List.append_nil (coreTail e),
        splitGo_coreTail hwf, List.append_nil]
      rw [pySplitGo]
      simp
  | cons e2 es ih =>
      intro j e acc hwf hwfs
      rw [tailText, splitGo_coreTail hwf]
      have hshape : ('\n' :: '\n' :: decRepr j ++ '.' :: ' ' ::
          (coreTail e2 ++ tailText (j + 1) es)) =
          '\n' :: ('\n' :: (decRepr j ++ '.' :: ' ' :: 'Q' ::
            ((':' :: ' ' :: []) ++ (e2.question ++ '\n' :: line2 e2 ++ '\n' :: line3 e2)
              ++ tailText (j + 1) es))) := by
        rw [coreTail_head]
        simp [List.append_assoc]
      rw [hshape]
      rw [pySplitGo_cons_match (sepMatchLen_boundary j _)]
      have hskip : ('\n' :: (decRepr j ++ '.' :: ' ' :: 'Q' ::
            ((':' :: ' ' :: []) ++ (e2.question ++ '\n' :: line2 e2 ++ '\n' :: line3 e2)
              ++ tailText (j + 1) es))) =
          ('\n' :: (decRepr j ++ '.' :: ' ' :: [])) ++
            ('Q' :: ((':' :: ' ' :: []) ++
              (e2.question ++ '\n' :: line2 e2 ++ '\n' :: line3 e2)
              ++ tailText (j + 1) es)) := by
        simp [List.append_assoc]
      rw [hskip]
      have hlen : ((decRepr j).length + 4) - 1 =
          (('\n' :: (decRepr j ++ '.' :: ' ' :: [])) : List Char).length := by
        simp
      rw [hlen, pySplitGo_skip]
      have hback : ('Q' :: ((':' :: ' ' :: []) ++
          (e2.question ++ '\n' :: line2 e2 ++ '\n' :: line3 e2)
          ++ tailText (j + 1) es)) = coreTail e2 ++ tailText (j + 1) es := by
        rw [coreTail_head]
        simp [List.append_assoc]
      rw [hback]
      rw [ih (j + 1) e2 [] (hwfs e2 (List.mem_cons_self _ _))
        (fun x hx => hwfs x (List.mem_cons_of_mem _ hx))]
      simp

/-- The block list of `parse_ref_text` on an exported file: the first
block keeps its `1. ` prefix, later blocks start at `Q:`. -/
lemma split_clean (es : List MatchedEntry) (i : Nat) (e : MatchedEntry)
    (hwf : ∀ x ∈ e :: es, entryWF x) :
    pySplitGo [] 0 (cleanText i (e :: es)) =
      (decRepr i ++ '.' :: ' ' :: coreTail e) :: es.map coreTail := by
  rw [cleanText_shape]
  have hpre : ∀ c ∈ decRepr i ++ '.' :: ' ' :: [], c ≠ '\n' := by
    intro c hc
    rcases List.mem_append.mp hc with hc | hc
    · have := decRepr_digits i c hc
      intro heq
      rw [heq] at this
      simp [isDigitCh] at this
    · fin_cases hc <;> decide
  rw [splitGo_chars hpre]
  rw [split_rest es (i + 1) e _ (hwf e (List.mem_cons_self _ _))
    (fun x hx => hwf x (List.mem_cons_of_mem _ hx))]
  simp [List.append_assoc]

/-! ## The per-block searches -/

lemma searchTag_cons_skip {tag c : Char} {rest : List Char}
    (h : ¬ (c.toLower = tag ∧ rest.head? = some ':')) :
    searchTagCapture tag (c :: rest) = searchTagCapture tag rest := by
  rw [searchTagCapture, if_neg h]

lemma searchTag_skip {tag : Char} {x : List Char}
    (hx : ∀ c ∈ x, c.toLower ≠ tag) (s : List Char) :
    searchTagCapture tag (x ++ s) = searchTagCapture tag s := by
  induction x with
  | nil => simp
  | cons c x ih =>
      rw [List.cons_append,
        searchTag_cons_skip (by
          rintro ⟨h1, -⟩
          exact hx c (List.mem_cons_self _ _) h1),
        ih (fun c hc => hx c (List.mem_cons_of_mem _ hc))]

lemma searchTag_skip_noColon {tag : Char} {x : List Char}
    (hx : ∀ c ∈ x, c ≠ ':') {s : List Char} (hs : s.head? ≠ some ':') :
    searchTagCapture tag (x ++ s) = searchTagCapture tag s := by
  induction x with
  | nil => simp
  | cons c x ih =>
      rw [List.cons_append]
      rw [searchTag_cons_skip (by
        rintro ⟨-, h2⟩
        cases x with
        | nil =>
            simp only [List.nil_append] at h2
            exact hs h2
        | cons d x' =>
            simp only [List.cons_append, List.head?_cons] at h2
            injection h2 with h3
            exact hx d (List.mem_cons_of_mem _ (List.mem_cons_self _ _)) h3)]
      exact ih (fun c hc => hx c (List.mem_cons_of_mem _ hc))

lemma searchTag_through_hasCITag {tag : Char} {x : List Char}
    (hx : hasCITag tag x = false) {s : List Char} (hs : s.head? ≠ some ':') :
    searchTagCapture tag (x ++ s) = searchTagCapture tag s := by
  induction x with
  | nil => simp
  | cons c x ih =>
      rw [hasCITag] at hx
      simp only [Bool.or_eq_false_iff, Bool.and_eq_false_iff] at hx
      rw [List.cons_append]
      rw [searchTag_cons_skip (by
        rintro ⟨h1, h2⟩
        rcases hx.1 with h | h
        · rw [decide_eq_true h1] at h
          cases h
        · cases x with
          | nil =>
              simp only [List.nil_append] at h2
              exact hs h2
          | cons d x' =>
              simp only [List.cons_append, List.head?_cons] at h2
              injection h2 with h3
              rw [List.head?_cons, h3] at h
              simp at h)]
      exact ih hx.2

lemma ciPrefixDrop_none_extend {pat v : List Char}
    (hpat : ∀ p ∈ pat, p ≠ '\n') (hv : ciPrefixDrop pat v = none) (s' : List Char) :
    ciPrefixDrop pat (v ++ '\n' :: s') = none := by
  induction pat generalizing v with
  | nil => simp [ciPrefixDrop] at hv
  | cons p ps ih =>
      cases v with
      | nil =>
          rw [List.nil_append, ciPrefixDrop, if_neg]
          intro h
          have : ('\n' : Char).toLower = '\n' := by decide
          rw [this] at h
          exact hpat p (List.mem_cons_self _ _) h.symm
      | cons c vs =>
          rw [List.cons_append, ciPrefixDrop]
          rw [ciPrefixDrop] at hv
          by_cases hc : c.toLower = p
          · rw [if_pos hc] at hv ⊢
            exact ih (fun p hp => hpat p (List.mem_cons_of_mem _ hp)) hv
          · rw [if_neg hc]

lemma searchQref_cons_skip {c : Char} {rest : List Char}
    (h : ciPrefixDrop ("q_ref:".data) (c :: rest) = none) :
    searchQrefCapture (c :: rest) = searchQrefCapture rest := by
  rw [searchQrefCapture]
  show (match ciPrefixDrop ("q_ref:".data) (c :: rest) with
    | some r =>
        if ((r.drop (r.takeWhile isPySpace).length).takeWhile isRefChar) ≠ [] then
          some ((r.drop (r.takeWhile isPySpace).length).takeWhile isRefChar)
        else searchQrefCapture rest
    | none => searchQrefCapture rest) = searchQrefCapture rest
  rw [h]

lemma searchQref_skip {x : List Char}
    (hx : ∀ c ∈ x, c.toLower ≠ 'q') (s : List Char) :
    searchQrefCapture (x ++ s) = searchQrefCapture s := by
  induction x with
  | nil => simp
  | cons c x ih =>
      rw [List.cons_append, searchQref_cons_skip (by
        rw [show ("q_ref:".data) = 'q' :: ("_ref:".data) from rfl, ciPrefixDrop,
          if_neg (hx c (List.mem_cons_self _ _))])]
      exact ih (fun c hc => hx c (List.mem_cons_of_mem _ hc))

lemma searchQref_through {x : List Char}
    (hx : hasCIStr ("q_ref:".data) x = false) (s' : List Char) :
    searchQrefCapture (x ++ '\n' :: s') = searchQrefCapture ('\n' :: s') := by
  induction x with
  | nil => simp
  | cons c x ih =>
      rw [hasCIStr] at hx
      simp only [Bool.or_eq_false_iff] at hx
      have hnone : ciPrefixDrop ("q_ref:".data) (c :: x) = none := by
        have h1 := hx.1
        cases hcp : ciPrefixDrop ("q_ref:".data) (c :: x) with
        | none => rfl
        | some r =>
            rw [show ("q_ref:".data) = ['q', '_', 'r', 'e', 'f', ':'] from rfl] at hcp
            rw [hcp] at h1
            simp at h1
      rw [List.cons_append, searchQref_cons_skip (by
        have := @ciPrefixDrop_none_extend ("q_ref:".data) _ (by decide)
          hnone s'
        rw [List.cons_append] at this
        exact this)]
      exact ih hx.2

/-- What the parser recovers as `question`: the `DOTALL` capture runs
to the end of the block, so the `Q_ref` and `A` lines are glued on. -/
def pollutedQ (e : MatchedEntry) : List Char :=
  e.question ++ ("\n   Q_ref: ".data) ++ e.question_ref ++ ("\n   A: ".data) ++ e.answer

lemma wf_q_shape {e : MatchedEntry} (hwf : entryWF e) :
    ∃ qh qt, e.question = qh :: qt ∧ isPySpace qh = false := by
  cases hq : e.question with
  | nil => exact absurd hq hwf.1
  | cons qh qt =>
      refine ⟨qh, qt, rfl, ?_⟩
      apply head_not_space_of_strip_eq hwf.2.2.2.2.2.1
      rw [hq]
      rfl

lemma wf_a_shape {e : MatchedEntry} (hwf : entryWF e) :
    ∃ ah at', e.answer = ah :: at' ∧ isPySpace ah = false := by
  cases ha : e.answer with
  | nil => exact absurd ha hwf.2.1
  | cons ah at' =>
      refine ⟨ah, at', rfl, ?_⟩
      apply head_not_space_of_strip_eq hwf.2.2.2.2.2.2.1
      rw [ha]
      rfl

lemma wf_a_last {e : MatchedEntry} (hwf : entryWF e) :
    ∃ aW al, e.answer = aW ++ [al] ∧ isPySpace al = false := by
  have hne := hwf.2.1
  refine ⟨e.answer.dropLast, e.answer.getLast hne, ?_, ?_⟩
  · exact (List.dropLast_append_getLast hne).symm
  · apply getLast_not_space_of_strip_eq hwf.2.2.2.2.2.2.1
    exact List.getLast?_eq_getLast _ hne

lemma wf_r_shape {e : MatchedEntry} (hwf : entryWF e) :
    ∃ rh rt, e.question_ref = rh :: rt ∧ isPySpace rh = false := by
  cases hr : e.question_ref with
  | nil => exact absurd hr hwf.2.2.1
  | cons rh rt =>
      refine ⟨rh, rt, rfl, ?_⟩
      apply refChar_not_space
      apply hwf.2.2.2.2.2.2.2.1
      rw [hr]
      exact List.mem_cons_self _ _

/-- At a found tag position with a single separating space and a
non-space next character, the capture is everything after the space. -/
lemma searchTag_hit {tag c : Char} {s : List Char} (hc : c.toLower = tag)
    (hs : ∃ sh st, s = sh :: st ∧ isPySpace sh = false) :
    searchTagCapture tag (c :: ':' :: ' ' :: s) = some s := by
  obtain ⟨sh, st, rfl, hshs⟩ := hs
  rw [searchTagCapture, if_pos ⟨hc, rfl⟩]
  show (if (' ' :: sh :: st).drop
        (((' ' :: sh :: st).takeWhile isPySpace).length) ≠ [] then
      some ((' ' :: sh :: st).drop
        (((' ' :: sh :: st).takeWhile isPySpace).length))
    else
      match ((' ' :: sh :: st).takeWhile isPySpace).getLast? with
      | some cw => some [cw]
      | none => searchTagCapture tag (':' :: ' ' :: sh :: st)) = some (sh :: st)
  rw [List.takeWhile_cons_of_pos (by decide),
    List.takeWhile_cons_of_neg (by simp [hshs])]
  simp

/-- The capture of the `Q:` search on a block: everything from after
`Q: ` to the end of the block. -/
lemma searchQ_coreTail {e : MatchedEntry} (hwf : entryWF e) :
    searchTagCapture 'q' (coreTail e) =
      some (e.question ++ '\n' :: line2 e ++ '\n' :: line3 e) := by
  obtain ⟨qh, qt, hq, hqs⟩ := wf_q_shape hwf
  rw [show coreTail e = 'Q' :: ':' :: ' ' ::
    (e.question ++ '\n' :: line2 e ++ '\n' :: line3 e) from by
      rw [coreTail_head]
      rfl]
  exact searchTag_hit (by decide)
    ⟨qh, qt ++ '\n' :: line2 e ++ '\n' :: line3 e, by rw [hq]; simp, hqs⟩

/-- The capture of the `Q_ref:` search on a block: exactly the
reference. -/
lemma searchQref_coreTail {e : MatchedEntry} (hwf : entryWF e) :
    searchQrefCapture (coreTail e) = some e.question_ref := by
  obtain ⟨rh, rt, hr, hrs⟩ := wf_r_shape hwf
  rw [show coreTail e = 'Q' :: ':' :: ' ' ::
    (e.question ++ '\n' :: line2 e ++ '\n' :: line3 e) from by
      rw [coreTail_head]
      rfl]
  rw [searchQref_cons_skip (by
    rw [show ("q_ref:".data) = 'q' :: '_' :: ("ref:".data) from rfl]
    rw [ciPrefixDrop, if_pos (by decide), ciPrefixDrop, if_neg (by decide)])]
  rw [show (':' :: ' ' ::
      (e.question ++ '\n' :: line2 e ++ '\n' :: line3 e) : List Char) =
    [':', ' '] ++ (e.question ++ '\n' :: line2 e ++ '\n' :: line3 e) from rfl]
  rw [searchQref_skip (x := [':', ' ']) (by decide)]
  rw [show e.question ++ '\n' :: line2 e ++ '\n' :: line3 e =
    e.question ++ '\n' :: (line2 e ++ '\n' :: line3 e) from by simp]
  rw [searchQref_through hwf.2.2.2.2.2.2.2.2.2.2.2 (line2 e ++ '\n' :: line3 e)]
  rw [searchQref_cons_skip (by
    rw [show ("q_ref:".data) = 'q' :: ("_ref:".data) from rfl]
    rw [ciPrefixDrop, if_neg (by decide)])]
  rw [show line2 e ++ '\n' :: line3 e =
    [' ', ' ', ' '] ++ ('Q' :: '_' :: 'r' :: 'e' :: 'f' :: ':' ::
      (' ' :: (e.question_ref ++ '\n' :: line3 e))) from rfl]
  rw [searchQref_skip (x := [' ', ' ', ' ']) (by decide)]
  rw [searchQrefCapture]
  have hcp : ciPrefixDrop ("q_ref:".data)
      ('Q' :: '_' :: 'r' :: 'e' :: 'f' :: ':' ::
        (' ' :: (e.question_ref ++ '\n' :: line3 e))) =
      some (' ' :: (e.question_ref ++ '\n' :: line3 e)) := by
    rw [show ("q_ref:".data) = 'q' :: '_' :: 'r' :: 'e' :: 'f' :: ':' :: [] from rfl]
    rw [ciPrefixDrop, if_pos (by decide), ciPrefixDrop, if_pos (by decide),
      ciPrefixDrop, if_pos (by decide), ciPrefixDrop, if_pos (by decide),
      ciPrefixDrop, if_pos (by decide), ciPrefixDrop, if_pos (by decide),
      ciPrefixDrop]
  show (match ciPrefixDrop ("q_ref:".data)
      ('Q' :: '_' :: 'r' :: 'e' :: 'f' :: ':' ::
        (' ' :: (e.question_ref ++ '\n' :: line3 e))) with
    | some r =>
        if ((r.drop (r.takeWhile isPySpace).length).takeWhile isRefChar) ≠ [] then
          some ((r.drop (r.takeWhile isPySpace).length).takeWhile isRefChar)
        else searchQrefCapture ('_' :: 'r' :: 'e' :: 'f' :: ':' ::
          (' ' :: (e.question_ref ++ '\n' :: line3 e)))
    | none => searchQrefCapture ('_' :: 'r' :: 'e' :: 'f' :: ':' ::
        (' ' :: (e.question_ref ++ '\n' :: line3 e)))) = some e.question_ref
  rw [hcp]
  show (if (((' ' :: (e.question_ref ++ '\n' :: line3 e)).drop
        (((' ' :: (e.question_ref ++ '\n' :: line3 e)).takeWhile
          isPySpace).length)).takeWhile isRefChar) ≠ [] then
      some (((' ' :: (e.question_ref ++ '\n' :: line3 e)).drop
        (((' ' :: (e.question_ref ++ '\n' :: line3 e)).takeWhile
          isPySpace).length)).takeWhile isRefChar)
    else searchQrefCapture ('_' :: 'r' :: 'e' :: 'f' :: ':' ::
      (' ' :: (e.question_ref ++ '\n' :: line3 e)))) = some e.question_ref
  have hw : ((' ' :: (e.question_ref ++ '\n' :: line3 e)) :
      List Char).takeWhile isPySpace = [' '] := by
    rw [List.takeWhile_cons_of_pos (by decide), hr,
      List.cons_append, List.takeWhile_cons_of_neg (by simp [hrs])]
  rw [hw]
  have hdrop : ((' ' :: (e.question_ref ++ '\n' :: line3 e)) : List Char).drop 1 =
      e.question_ref ++ '\n' :: line3 e := rfl
  rw [show ([' '] : List Char).length = 1 from rfl, hdrop]
  have htk : (e.question_ref ++ '\n' :: line3 e).takeWhile isRefChar =
      e.question_ref :=
    takeWhile_append_of_all (fun c hc => hwf.2.2.2.2.2.2.2.1 c hc) (by decide) _
  rw [htk]
  rw [if_pos (by simp [hwf.2.2.1])]

/-- The capture of the `A:` search on a block: exactly the answer. -/
lemma searchA_coreTail {e : MatchedEntry} (hwf : entryWF e) :
    searchTagCapture 'a' (coreTail e) = some e.answer := by
  obtain ⟨ah, at', ha, has⟩ := wf_a_shape hwf
  rw [show coreTail e = ['Q', ':', ' '] ++
    (e.question ++ '\n' :: line2 e ++ '\n' :: line3 e) from by
      rw [coreTail_head]]
  rw [searchTag_skip (x := ['Q', ':', ' ']) (by decide)]
  rw [show e.question ++ '\n' :: line2 e ++ '\n' :: line3 e =
    e.question ++ '\n' :: (line2 e ++ '\n' :: line3 e) from by simp]
  rw [searchTag_through_hasCITag hwf.2.2.2.2.2.2.2.2.2.2.1 (by
    intro h
    rw [List.head?_cons] at h
    exact absurd (Option.some.inj h) (by decide))]
  rw [searchTag_cons_skip (by
    rintro ⟨h1, -⟩
    exact absurd h1 (by decide))]
  rw [show line2 e ++ '\n' :: line3 e =
    [' ', ' ', ' ', 'Q', '_', 'r', 'e', 'f'] ++
      (':' :: ' ' :: (e.question_ref ++ '\n' :: line3 e)) from rfl]
  rw [searchTag_skip (x := [' ', ' ', ' ', 'Q', '_', 'r', 'e', 'f']) (by decide)]
  rw [searchTag_cons_skip (by
    rintro ⟨h1, -⟩
    exact absurd h1 (by decide))]
  rw [searchTag_cons_skip (by
    rintro ⟨h1, -⟩
    exact absurd h1 (by decide))]
  rw [searchTag_skip_noColon (x := e.question_ref) (fun c hc heq => by
      have h8 := hwf.2.2.2.2.2.2.2.1 c hc
      rw [heq] at h8
      exact absurd h8 (by decide))
    (by
      intro h
      rw [List.head?_cons] at h
      exact absurd (Option.some.inj h) (by decide))]
  rw [searchTag_cons_skip (by
    rintro ⟨h1, -⟩
    exact absurd h1 (by decide))]
  rw [show line3 e = [' ', ' ', ' '] ++ ('A' :: ':' :: ' ' :: e.answer) from rfl]
  rw [searchTag_skip (x := [' ', ' ', ' ']) (by decide)]
  rw [searchTag_hit (by decide) ⟨ah, at', ha, has⟩]

/-! ## The per-block state step -/

lemma dropWhile_all_neg {p : Char → Bool} : ∀ {s : List Char},
    (∀ c ∈ s, p c = false) → s.dropWhile p = s
  | [], _ => rfl
  | c :: _, h => List.dropWhile_cons_of_neg (by simp [h c (List.mem_cons_self _ _)])

lemma pyStrip_of_all_nonspace {s : List Char}
    (h : ∀ c ∈ s, isPySpace c = false) : pyStrip s = s := by
  unfold pyStrip pyLStrip pyRStrip
  rw [dropWhile_all_neg h,
    dropWhile_all_neg (fun c hc => h c (List.mem_reverse.mp hc)), List.reverse_reverse]

lemma pyStrip_eq_self_of_ends {h : Char} {m : List Char} {l : Char}
    (hh : isPySpace h = false) (hl : isPySpace l = false) :
    pyStrip (h :: (m ++ [l])) = h :: (m ++ [l]) := by
  unfold pyStrip
  rw [pyLStrip_cons_nonspace hh]
  rw [show h :: (m ++ [l]) = (h :: m) ++ [l] from by simp]
  rw [pyRStrip_append_nonspace hl]

lemma pyStrip_coreTail {e : MatchedEntry} (hwf : entryWF e) :
    pyStrip (coreTail e) = coreTail e := by
  obtain ⟨aW, al, ha, hal⟩ := wf_a_last hwf
  rw [show coreTail e = 'Q' :: ((':' :: ' ' :: (e.question ++ '\n' :: line2 e)
      ++ '\n' :: ("   A: ".data) ++ aW) ++ [al]) from by
    rw [coreTail_head]
    unfold line3
    rw [ha]
    simp [List.append_assoc]]
  rw [pyStrip_eq_self_of_ends (by decide) hal]

lemma pyStrip_numTail (i : Nat) {e : MatchedEntry} (hwf : entryWF e) :
    pyStrip (decRepr i ++ '.' :: ' ' :: coreTail e) =
      decRepr i ++ '.' :: ' ' :: coreTail e := by
  obtain ⟨aW, al, ha, hal⟩ := wf_a_last hwf
  cases hd : decRepr i with
  | nil => exact absurd hd (decRepr_ne_nil i)
  | cons d ds =>
      have hds : isPySpace d = false :=
        digit_not_space (decRepr_digits i d (hd ▸ List.mem_cons_self d ds))
      rw [show (d :: ds) ++ '.' :: ' ' :: coreTail e =
        d :: ((ds ++ '.' :: ' ' :: ('Q' :: ':' :: ' ' ::
          (e.question ++ '\n' :: line2 e)) ++ '\n' :: ("   A: ".data) ++ aW)
          ++ [al]) from by
        rw [coreTail_head]
        unfold line3
        rw [ha]
        simp [List.append_assoc]]
      rw [pyStrip_eq_self_of_ends hds hal]

/-- The polluted question: the greedy `DOTALL` capture keeps the
`Q_ref` and `A` lines glued to the question. -/
lemma pollutedQ_eq (e : MatchedEntry) :
    e.question ++ '\n' :: line2 e ++ '\n' :: line3 e = pollutedQ e := by
  unfold pollutedQ line2 line3
  rw [show ("\n   Q_ref: ".data) = '\n' :: ("   Q_ref: ".data) from rfl,
    show ("\n   A: ".data) = '\n' :: ("   A: ".data) from rfl]
  simp [List.append_assoc]

lemma pyStrip_polluted {e : MatchedEntry} (hwf : entryWF e) :
    pyStrip (e.question ++ '\n' :: line2 e ++ '\n' :: line3 e) =
      e.question ++ '\n' :: line2 e ++ '\n' :: line3 e := by
  obtain ⟨qh, qt, hq, hqs⟩ := wf_q_shape hwf
  obtain ⟨aW, al, ha, hal⟩ := wf_a_last hwf
  rw [show e.question ++ '\n' :: line2 e ++ '\n' :: line3 e =
    qh :: ((qt ++ '\n' :: line2 e ++ '\n' :: ("   A: ".data) ++ aW) ++ [al])
    from by
      rw [hq]
      unfold line3
      rw [ha]
      simp [List.append_assoc]]
  rw [pyStrip_eq_self_of_ends hqs hal]

lemma searchQ_numTail (i : Nat) {e : MatchedEntry} (hwf : entryWF e) :
    searchTagCapture 'q' (decRepr i ++ '.' :: ' ' :: coreTail e) =
      some (e.question ++ '\n' :: line2 e ++ '\n' :: line3 e) := by
  rw [searchTag_skip (x := decRepr i) (fun c hc => by
    have hdg := decRepr_digits i c hc
    rw [toLower_of_digit hdg]
    intro heq
    rw [heq] at hdg
    exact absurd hdg (by decide))]
  rw [searchTag_cons_skip (by rintro ⟨h1, -⟩; exact absurd h1 (by decide))]
  rw [searchTag_cons_skip (by rintro ⟨h1, -⟩; exact absurd h1 (by decide))]
  exact searchQ_coreTail hwf

lemma searchQref_numTail (i : Nat) {e : MatchedEntry} (hwf : entryWF e) :
    searchQrefCapture (decRepr i ++ '.' :: ' ' :: coreTail e) =
      some e.question_ref := by
  rw [searchQref_skip (x := decRepr i) (fun c hc => by
    have hdg := decRepr_digits i c hc
    rw [toLower_of_digit hdg]
    intro heq
    rw [heq] at hdg
    exact absurd hdg (by decide))]
  rw [searchQref_cons_skip (by
    rw [show ("q_ref:".data) = 'q' :: ("_ref:".data) from rfl]
    rw [ciPrefixDrop, if_neg (by decide)])]
  rw [searchQref_cons_skip (by
    rw [show ("q_ref:".data) = 'q' :: ("_ref:".data) from rfl]
    rw [ciPrefixDrop, if_neg (by decide)])]
  exact searchQref_coreTail hwf

lemma searchA_numTail (i : Nat) {e : MatchedEntry} (hwf : entryWF e) :
    searchTagCapture 'a' (decRepr i ++ '.' :: ' ' :: coreTail e) =
      some e.answer := by
  rw [searchTag_skip (x := decRepr i) (fun c hc => by
    have hdg := decRepr_digits i c hc
    rw [toLower_of_digit hdg]
    intro heq
    rw [heq] at hdg
    exact absurd hdg (by decide))]
  rw [searchTag_cons_skip (by rintro ⟨h1, -⟩; exact absurd h1 (by decide))]
  rw [searchTag_cons_skip (by rintro ⟨h1, -⟩; exact absurd h1 (by decide))]
  exact searchA_coreTail hwf

/-- A block of the form `Q: ...` appends one parsed entry (with the
polluted question) and resets the accumulators. -/
lemma parseBlockStep_core {e : MatchedEntry} (hwf : entryWF e)
    (entries : List ParsedEntry) (cq cr ca : List Char) :
    parseBlockStep (entries, cq, cr, ca) (coreTail e) =
      (entries ++ [⟨e.question_ref, pollutedQ e, e.answer⟩], [], [], []) := by
  have hne : (coreTail e).isEmpty = false := by
    rw [coreTail_head]
    rfl
  have hqr : pyStrip e.question_ref = e.question_ref :=
    pyStrip_of_all_nonspace
      (fun c hc => refChar_not_space (hwf.2.2.2.2.2.2.2.1 c hc))
  simp only [parseBlockStep, pyStrip_coreTail hwf, hne, Bool.false_eq_true,
    if_false, searchQ_coreTail hwf, searchQref_coreTail hwf,
    searchA_coreTail hwf, pyStrip_polluted hwf, hqr, hwf.2.2.2.2.2.2.1,
    pollutedQ_eq]
  rw [if_pos ⟨hwf.2.2.1, hwf.2.1⟩]
  rw [show pyStrip (pollutedQ e) = pollutedQ e from by
    rw [← pollutedQ_eq]
    exact pyStrip_polluted hwf]

/-- A numbered block `{i}. Q: ...` behaves the same way. -/
lemma parseBlockStep_num (i : Nat) {e : MatchedEntry} (hwf : entryWF e)
    (entries : List ParsedEntry) (cq cr ca : List Char) :
    parseBlockStep (entries, cq, cr, ca) (decRepr i ++ '.' :: ' ' :: coreTail e) =
      (entries ++ [⟨e.question_ref, pollutedQ e, e.answer⟩], [], [], []) := by
  have hne : (decRepr i ++ '.' :: ' ' :: coreTail e).isEmpty = false := by
    cases hd : decRepr i with
    | nil => exact absurd hd (decRepr_ne_nil i)
    | cons d ds => rfl
  have hqr : pyStrip e.question_ref = e.question_ref :=
    pyStrip_of_all_nonspace
      (fun c hc => refChar_not_space (hwf.2.2.2.2.2.2.2.1 c hc))
  simp only [parseBlockStep, pyStrip_numTail i hwf, hne, Bool.false_eq_true,
    if_false, searchQ_numTail i hwf, searchQref_numTail i hwf,
    searchA_numTail i hwf, pyStrip_polluted hwf, hqr, hwf.2.2.2.2.2.2.1,
    pollutedQ_eq]
  rw [if_pos ⟨hwf.2.2.1, hwf.2.1⟩]
  rw [show pyStrip (pollutedQ e) = pollutedQ e from by
    rw [← pollutedQ_eq]
    exact pyStrip_polluted hwf]

/-- Folding the step over the later (unnumbered) blocks. -/
lemma foldl_blocks : ∀ (es : List MatchedEntry), (∀ x ∈ es, entryWF x) →
    ∀ (entries : List ParsedEntry),
    (es.map coreTail).foldl parseBlockStep (entries, [], [], []) =
      (entries ++ es.map
        (fun e => ⟨e.question_ref, pollutedQ e, e.answer⟩), [], [], []) := by
  intro es
  induction es with
  | nil =>
      intro _ entries
      simp
  | cons e es ih =>
      intro hwf entries
      rw [List.map_cons, List.foldl_cons,
        parseBlockStep_core (hwf e (List.mem_cons_self _ _)) entries,
        ih (fun x hx => hwf x (List.mem_cons_of_mem _ hx))]
      simp

/-- C1, amended: the export/parse round trip.  For every sequence of
well-formed matched entries, `parse_ref_text (export_text E)` yields one
parsed entry per input entry, in order; `ref` is the entry's
`question_ref` and `answer` is the entry's `answer_text`, both exact,
and `match_kind` is dropped — but the recovered `question` is NOT the
original question title: the parser's `Q:` capture is `DOTALL` and
greedy, so it also swallows the following `Q_ref:` and `A:` lines
(`pollutedQ`). -/
theorem parse_export_roundtrip (E : List MatchedEntry)
    (hwf : ∀ e ∈ E, entryWF e) :
    parse_ref_text (export_text E) =
      E.map (fun e => ⟨e.question_ref, pollutedQ e, e.answer⟩) := by
  cases E with
  | nil => rfl
  | cons e es =>
      simp only [parse_ref_text, export_text]
      rw [strip_export 1 e es hwf, splitlines_body es 1 e hwf,
        filter_linesNoTrail, joinNL_keptLines, split_clean es 1 e hwf]
      rw [List.foldl_cons,
        parseBlockStep_num 1 (hwf e (List.mem_cons_self _ _)) [] [] [] []]
      rw [foldl_blocks es (fun x hx => hwf x (List.mem_cons_of_mem _ hx))]
      simp

/-- C1, counterexample to the stated law: exporting the single matched
entry (question `Age?`, reference `r1`, answer `29`, exact match) and
parsing the result does not reproduce the question title `Age?`; the
parsed question is the whole block `Age?\n   Q_ref: r1\n   A: 29`.
Reference and answer are reproduced exactly. -/
theorem parse_export_roundtrip_cex :
    parse_ref_text (export_text
      [⟨("Age?".data), ("r1".data), ("29".data), ("r1".data), ("EXACT".data)⟩]) ≠
      [⟨("r1".data), ("Age?".data), ("29".data)⟩] ∧
    parse_ref_text (export_text
      [⟨("Age?".data), ("r1".data), ("29".data), ("r1".data), ("EXACT".data)⟩]) =
      [⟨("r1".data), ("Age?\n   Q_ref: r1\n   A: 29".data), ("29".data)⟩] := by
  decide

/-- Witness for the amended C1 at a concrete input: the single
well-formed `Age?`/`r1`/`29` entry. -/
theorem parse_export_roundtrip_witness :
    (∀ e ∈ [(⟨("Age?".data), ("r1".data), ("29".data), ("r1".data),
        ("EXACT".data)⟩ : MatchedEntry)], entryWF e) ∧
    parse_ref_text (export_text
      [⟨("Age?".data), ("r1".data), ("29".data), ("r1".data), ("EXACT".data)⟩]) =
      [(⟨("Age?".data), ("r1".data), ("29".data), ("r1".data),
        ("EXACT".data)⟩ : MatchedEntry)].map
        (fun e => ⟨e.question_ref, pollutedQ e, e.answer⟩) :=
  ⟨by decide, parse_export_roundtrip _ (by decide)⟩

/-! ## The two schema loaders (`load_schema` of both scripts)

The schema document is modelled structurally: a field descriptor has the
four optional string members the loaders read, and the document has its
optional `id`, `title` and `fields` members.  `none` models an absent
JSON key. -/

/-- One element of the schema document's `fields` array, restricted to
the members the loaders read. -/
structure FieldDoc where
  title : Option (List Char)
  ref : Option (List Char)
  type : Option (List Char)
  id : Option (List Char)
deriving DecidableEq

/-- The schema document (`macro_survey_pretty.json`), restricted to the
members the loaders read. -/
structure SchemaDoc where
  id : Option (List Char)
  title : Option (List Char)
  fields : Option (List FieldDoc)
deriving DecidableEq

/-- `build_ref_text.load_schema`, minus file reading and the `print`:
`data.get("fields", [])` with per-field defaults `""`, `""`, `"text"`
and a stripped title. -/
def load_schema_ref (doc : SchemaDoc) : List SchemaField :=
  (doc.fields.getD []).foldl
    (fun acc f => acc ++
      [⟨pyStrip (f.title.getD []), f.ref.getD [], f.type.getD ("text".data)⟩]) []

/-- One value of the `ref_map` that `build_user_json.load_schema`
builds. -/
structure UserField where
  id : List Char
  title : List Char
  type : List Char
deriving DecidableEq

/-- `build_user_json.load_schema`, minus file reading and the `print`:
the insertion-ordered `ref_map` over fields with truthy `ref`s, plus
the form id and title with their defaults. -/
def load_schema_user (doc : SchemaDoc) :
    List (List Char × UserField) × List Char × List Char :=
  ((doc.fields.getD []).foldl
    (fun m f =>
      match f.ref with
      | some r =>
          if r ≠ [] then
            dictInsert m r
              ⟨f.id.getD (("id_".data) ++ r.take 6), f.title.getD [],
                f.type.getD ("text".data)⟩
          else m
      | none => m) [],
   doc.id.getD ("mock_form_001".data),
   doc.title.getD ("Untitled Form".data))

lemma foldl_append_eq_map {α β : Type} (g : α → β) :
    ∀ (xs : List α) (acc : List β),
      xs.foldl (fun acc2 x => acc2 ++ [g x]) acc = acc ++ xs.map g := by
  intro xs
  induction xs with
  | nil =>
      intro acc
      simp
  | cons x xs ih =>
      intro acc
      simp [ih]

/-! ## Answer-Type Inferencer (`build_user_json.detect_answer_type`) -/

/-- The data part of a detected answer: `{"number": ...}`,
`{"choice": {"label": ...}}` or `{"text": ...}`.  Python converts the
digit run with `float`; the run's integer value is used here (the two
agree on every run below 2^53, and `float` never raises on a digit
run). -/
inductive AnswerPayload where
  | num (n : Nat)
  | choice (label : List Char)
  | text (t : List Char)
deriving DecidableEq

/-- Does the second list start with the first? -/
def startsWith : List Char → List Char → Bool
  | [], _ => true
  | _ :: _, [] => false
  | p :: ps, c :: cs => p = c && startsWith ps cs

/-- Python's substring test `pat in s`. -/
def strContains (pat : List Char) : List Char → Bool
  | [] => startsWith pat []
  | c :: rest => startsWith pat (c :: rest) || strContains pat rest

/-- `re.findall(r"\d+", s)[0]`: the first maximal digit run, if any. -/
def firstDigitRun : List Char → Option (List Char)
  | [] => none
  | c :: rest =>
      if isDigitCh c then some (c :: rest.takeWhile isDigitCh)
      else firstDigitRun rest

/-- The integer value of a digit run. -/
def natOfDigits (ds : List Char) : Nat :=
  ds.foldl (fun a c => 10 * a + (c.toNat - 48)) 0

/-- `build_user_json.detect_answer_type`: lower-cases the hint, strips
the answer; `number` when the hint mentions number/scale or the answer
starts with a digit (falling back to `text` when the answer has no
digit run at all, the `except` branch); `choice` on
choice/dropdown/multiple hints; `text` otherwise. -/
def detect_answer_type (field_type answer : List Char) :
    List Char × AnswerPayload :=
  let ft := pyLower field_type
  let ans := pyStrip answer
  if (strContains ("number".data) ft || strContains ("scale".data) ft ||
      (match ans with | c :: _ => isDigitCh c | [] => false)) then
    match firstDigitRun ans with
    | some run => (("number".data), .num (natOfDigits run))
    | none => (("text".data), .text ans)
  else if (strContains ("choice".data) ft || strContains ("dropdown".data) ft ||
      strContains ("multiple".data) ft) then
    (("choice".data), .choice ans)
  else
    (("text".data), .text ans)

/-! ## Payload Builder (`build_user_json.build_typeform_json`)

Only the parts of the payload the claims speak about are kept: the
`definition.fields` list, the `answers` list, and the warnings the
unresolved references print. -/

/-- A member of `definition.fields`. -/
structure TFField where
  id : List Char
  title : List Char
  type : List Char
deriving DecidableEq

/-- A member of `answers`: its `field.id`, `field.type`, `type`, and
the data attached by `detect_answer_type`. -/
structure TFAnswer where
  fieldId : List Char
  fieldType : List Char
  ansType : List Char
  payload : AnswerPayload
deriving DecidableEq

/-- One loop iteration of `build_typeform_json`: resolve the ref in
the schema map, else synthesize the placeholder (type `"text"`, id
`"id_" + ref[:6]`, title from the entry's question) and warn; append
one field definition and one answer. -/
def buildStep (m : List (List Char × UserField))
    (st : List TFField × List TFAnswer × List (List Char))
    (e : ParsedEntry) : List TFField × List TFAnswer × List (List Char) :=
  match dictLookup m e.ref with
  | none =>
      (st.1 ++ [⟨("id_".data) ++ e.ref.take 6, e.question, ("text".data)⟩],
       st.2.1 ++ [⟨("id_".data) ++ e.ref.take 6, ("text".data),
         (detect_answer_type ("text".data) e.answer).1,
         (detect_answer_type ("text".data) e.answer).2⟩],
       st.2.2 ++ [e.ref])
  | some f =>
      (st.1 ++ [⟨f.id, f.title, f.type⟩],
       st.2.1 ++ [⟨f.id, f.type, (detect_answer_type f.type e.answer).1,
         (detect_answer_type f.type e.answer).2⟩],
       st.2.2)

/-- `build_user_json.build_typeform_json`, restricted to
`(definition.fields, answers, warnings)`. -/
def build_typeform_json (entries : List ParsedEntry)
    (m : List (List Char × UserField)) :
    List TFField × List TFAnswer × List (List Char) :=
  entries.foldl (buildStep m) ([], [], [])

/-- The field definition one entry contributes. -/
def fieldFor (m : List (List Char × UserField)) (e : ParsedEntry) : TFField :=
  match dictLookup m e.ref with
  | none => ⟨("id_".data) ++ e.ref.take 6, e.question, ("text".data)⟩
  | some f => ⟨f.id, f.title, f.type⟩

/-- The answer one entry contributes. -/
def answerFor (m : List (List Char × UserField)) (e : ParsedEntry) : TFAnswer :=
  match dictLookup m e.ref with
  | none => ⟨("id_".data) ++ e.ref.take 6, ("text".data),
      (detect_answer_type ("text".data) e.answer).1,
      (detect_answer_type ("text".data) e.answer).2⟩
  | some f => ⟨f.id, f.type, (detect_answer_type f.type e.answer).1,
      (detect_answer_type f.type e.answer).2⟩

lemma answerFor_fieldId (m : List (List Char × UserField)) (e : ParsedEntry) :
    (answerFor m e).fieldId = (fieldFor m e).id := by
  unfold answerFor fieldFor
  cases dictLookup m e.ref <;> rfl

lemma build_foldl_spec (m : List (List Char × UserField)) :
    ∀ (entries : List ParsedEntry) (fs : List TFField) (xs : List TFAnswer)
      (ws : List (List Char)),
    entries.foldl (buildStep m) (fs, xs, ws) =
      (fs ++ entries.map (fieldFor m), xs ++ entries.map (answerFor m),
       ws ++ (entries.filter
         (fun e => (dictLookup m e.ref).isNone)).map ParsedEntry.ref) := by
  intro entries
  induction entries with
  | nil =>
      intro fs xs ws
      simp
  | cons e es ih =>
      intro fs xs ws
      rw [List.foldl_cons]
      have hstep : buildStep m (fs, xs, ws) e =
          (fs ++ [fieldFor m e], xs ++ [answerFor m e],
           ws ++ (if (dictLookup m e.ref).isNone then [e.ref] else [])) := by
        unfold buildStep fieldFor answerFor
        cases dictLookup m e.ref <;> simp
      rw [hstep, ih]
      cases hl : dictLookup m e.ref <;> simp [hl]

/-- The builder in closed form: one field definition and one answer per
entry, in input order, and one warning per unresolved reference. -/
lemma build_typeform_spec (m : List (List Char × UserField))
    (entries : List ParsedEntry) :
    build_typeform_json entries m =
      (entries.map (fieldFor m), entries.map (answerFor m),
       (entries.filter
         (fun e => (dictLookup m e.ref).isNone)).map ParsedEntry.ref) := by
  unfold build_typeform_json
  rw [build_foldl_spec]
  simp

/-! ## Response Normalizer (`normalize_typeform`) -/

/-- A Python/JSON value, as far as `normalize_typeform` inspects it. -/
inductive PyVal where
  | pstr (s : List Char)
  | pnum (n : Int)
  | pbool (b : Bool)
  | pnull
  | plist (xs : List PyVal)
  | pdict (kvs : List (List Char × PyVal))

/-- `d.get(k)` on a dict modelled as an ordered association list. -/
def dGet (kvs : List (List Char × PyVal)) (k : List Char) : Option PyVal :=
  dictLookup kvs k

/-- Python truthiness of a value. -/
def pyTruthy : PyVal → Bool
  | .pstr s => !s.isEmpty
  | .pnum n => decide (n ≠ 0)
  | .pbool b => b
  | .pnull => false
  | .plist xs => !xs.isEmpty
  | .pdict kvs => !kvs.isEmpty

/-- The `value` computation of `normalize_typeform`'s answer loop:
`choice` reads `choice.label` (raising — `none` — when `choice` is
bound to a non-dict), `number` and `text` read their keys, and any
other `type` keeps the whole answer record minus its `field` key. -/
def normalize_answer_value (ans : List (List Char × PyVal)) : Option PyVal :=
  match dGet ans ("type".data) with
  | some (.pstr t) =>
      if t = ("choice".data) then
        match (dGet ans ("choice".data)).getD (.pdict []) with
        | .pdict d => some ((dGet d ("label".data)).getD .pnull)
        | _ => none
      else if t = ("number".data) then some ((dGet ans ("number".data)).getD .pnull)
      else if t = ("text".data) then some ((dGet ans ("text".data)).getD .pnull)
      else some (.pdict (ans.filter (fun kv => kv.1 ≠ ("field".data))))
  | _ => some (.pdict (ans.filter (fun kv => kv.1 ≠ ("field".data))))

/-- One normalized answer record. -/
structure NormalizedAnswer where
  field_id : PyVal
  field_title : PyVal
  field_type : PyVal
  answer_type : PyVal
  value : PyVal

/-- One iteration of `normalize_typeform`'s `for ans in answers` loop,
given the precomputed `fields_by_id` map (id to (title, type)).
`none` models a raised exception. -/
def normalize_one (fieldsById : List (List Char × (PyVal × PyVal)))
    (ans : List (List Char × PyVal)) : Option NormalizedAnswer :=
  match (dGet ans ("field".data)).getD (.pdict []) with
  | .pdict fd =>
      let field_id := (dGet fd ("id".data)).getD .pnull
      let field_type := (dGet fd ("type".data)).getD .pnull
      let fm : PyVal × PyVal :=
        match field_id with
        | .pstr s => (dictLookup fieldsById s).getD (.pnull, .pnull)
        | _ => (.pnull, .pnull)
      match normalize_answer_value ans with
      | some v =>
          some ⟨field_id, fm.1, if pyTruthy fm.2 then fm.2 else field_type,
            (dGet ans ("type".data)).getD .pnull, v⟩
      | none => none
  | _ => none

/-- `normalize_typeform`'s `normalized_answers` list. -/
def normalize_answers (fieldsById : List (List Char × (PyVal × PyVal))) :
    List (List (List Char × PyVal)) → Option (List NormalizedAnswer)
  | [] => some []
  | a :: rest =>
      match normalize_one fieldsById a with
      | some n => (normalize_answers fieldsById rest).map (fun ns => n :: ns)
      | none => none

/-! ## Claims C4, C5, C6, C7, C9 -/

/-- C4, counterexample: a schema document with no field list (the
`fields` key absent) and one with an empty field list make both
`load_schema` functions return normally — an empty field list and an
empty ref map.  Neither function has an abort path, so no `SchemaError`
is ever raised. -/
theorem load_schema_no_fields_cex :
    load_schema_ref ⟨none, none, none⟩ = [] ∧
    load_schema_ref ⟨none, none, some []⟩ = [] ∧
    (load_schema_user ⟨none, none, none⟩).1 = [] ∧
    (load_schema_user ⟨none, none, some []⟩).1 = [] := by
  decide

/-- C4, amended: both schema loaders are total — a document without a
recognizable field list yields a normal return with no fields rather
than a `SchemaError`; for documents with a field list,
`build_ref_text.load_schema` returns one record per field descriptor
with the type hint defaulting to `"text"` when absent (title stripped,
defaulting to `""`; ref defaulting to `""`). -/
theorem load_schema_total (doc : SchemaDoc) :
    load_schema_ref doc = (doc.fields.getD []).map
      (fun f => ⟨pyStrip (f.title.getD []), f.ref.getD [],
        f.type.getD ("text".data)⟩) ∧
    (doc.fields = none ∨ doc.fields = some [] →
      load_schema_ref doc = [] ∧ (load_schema_user doc).1 = []) := by
  constructor
  · unfold load_schema_ref
    rw [foldl_append_eq_map
      (fun f : FieldDoc => (⟨pyStrip (f.title.getD []), f.ref.getD [],
        f.type.getD ("text".data)⟩ : SchemaField))]
    simp
  · rintro (h | h) <;>
      simp [load_schema_ref, load_schema_user, h]

/-- C5: whenever the stripped answer begins with a digit, the
inferencer returns kind `number` with the value of the leading digit
run, whatever the type hint says (a `choice` hint does not override
it). -/
theorem detect_number_on_leading_digit (ft ans : List Char) (c : Char)
    (rest : List Char) (hs : pyStrip ans = c :: rest)
    (hc : isDigitCh c = true) :
    detect_answer_type ft ans =
      (("number".data),
       AnswerPayload.num (natOfDigits (c :: rest.takeWhile isDigitCh))) := by
  simp only [detect_answer_type, hs, hc, Bool.or_true, if_true]
  rw [firstDigitRun, if_pos hc]

/-- Witness for C5 at a concrete input: hint `choice`, answer
`"  29 years old"` — detected as a number with payload 29, the hint
notwithstanding. -/
theorem detect_number_on_leading_digit_witness :
    pyStrip ("  29 years old".data) = '2' :: ("9 years old".data) ∧
    isDigitCh '2' = true ∧
    detect_answer_type ("choice".data) ("  29 years old".data) =
      (("number".data),
       AnswerPayload.num (natOfDigits
         ('2' :: (("9 years old".data).takeWhile isDigitCh)))) :=
  ⟨by decide, by decide,
   detect_number_on_leading_digit _ _ '2' _ (by decide) (by decide)⟩

/-- C6: the Payload Builder is total for arbitrary reference strings:
every entry contributes exactly one field definition and one answer;
an entry whose reference is not in the schema map gets the synthesized
placeholder (type `"text"`, id `"id_" + ref[:6]`, title from the
entry's question) and its ref appears in the warnings; a resolvable
reference uses the schema field's id, title and type. -/
theorem builder_total_placeholder (m : List (List Char × UserField))
    (entries : List ParsedEntry) :
    (build_typeform_json entries m).1 = entries.map (fieldFor m) ∧
    (build_typeform_json entries m).2.1 = entries.map (answerFor m) ∧
    (build_typeform_json entries m).2.2 =
      (entries.filter
        (fun e => (dictLookup m e.ref).isNone)).map ParsedEntry.ref ∧
    (∀ e ∈ entries, dictLookup m e.ref = none →
      fieldFor m e = ⟨("id_".data) ++ e.ref.take 6, e.question, ("text".data)⟩ ∧
      e.ref ∈ (build_typeform_json entries m).2.2) ∧
    (∀ e ∈ entries, ∀ f, dictLookup m e.ref = some f →
      fieldFor m e = ⟨f.id, f.title, f.type⟩) := by
  rw [build_typeform_spec]
  refine ⟨rfl, rfl, rfl, ?_, ?_⟩
  · intro e he hl
    constructor
    · unfold fieldFor
      rw [hl]
    · simp only [List.mem_map]
      exact ⟨e, List.mem_filter.mpr ⟨he, by simp [hl]⟩, rfl⟩
  · intro e _ f hl
    unfold fieldFor
    rw [hl]

/-- C9: payload invariant — field definitions and answers are appended
in input-entry order with no deduplication (both lists have exactly one
element per input entry), the `i`-th answer carries the `i`-th field
definition's id, and hence every answer references a field id that
appears in the field-definition list. -/
theorem payload_answers_reference_fields (m : List (List Char × UserField))
    (entries : List ParsedEntry) :
    (build_typeform_json entries m).1.length = entries.length ∧
    (build_typeform_json entries m).2.1.length = entries.length ∧
    (∀ i : Nat, ((build_typeform_json entries m).2.1[i]?.map TFAnswer.fieldId) =
      ((build_typeform_json entries m).1[i]?.map TFField.id)) ∧
    (∀ a ∈ (build_typeform_json entries m).2.1,
      ∃ f ∈ (build_typeform_json entries m).1, a.fieldId = f.id) := by
  rw [build_typeform_spec]
  refine ⟨by simp, by simp, ?_, ?_⟩
  · intro i
    simp only [List.getElem?_map, Option.map_map]
    cases entries[i]? with
    | none => rfl
    | some e =>
        simp [answerFor_fieldId]
  · intro a ha
    simp only [List.mem_map] at ha
    obtain ⟨e, he, rfl⟩ := ha
    exact ⟨fieldFor m e, List.mem_map.mpr ⟨e, he, rfl⟩, answerFor_fieldId m e⟩

/-- C7: an answer whose `type` is outside number/choice/text is kept
whole — the normalizer neither raises nor discards it; its `value` is
the full answer record with only the `field` key removed, all other
keys preserved in order. -/
theorem normalizer_unknown_kind_preserves_record
    (fieldsById : List (List Char × (PyVal × PyVal)))
    (ans : List (List Char × PyVal)) (fd : List (List Char × PyVal))
    (t : List Char)
    (hf : dGet ans ("field".data) = some (.pdict fd))
    (ht : dGet ans ("type".data) = some (.pstr t))
    (h1 : t ≠ ("choice".data)) (h2 : t ≠ ("number".data))
    (h3 : t ≠ ("text".data)) :
    ∃ n, normalize_one fieldsById ans = some n ∧
      n.value = .pdict (ans.filter (fun kv => kv.1 ≠ ("field".data))) := by
  have hv : normalize_answer_value ans =
      some (.pdict (ans.filter (fun kv => kv.1 ≠ ("field".data)))) := by
    simp only [normalize_answer_value, ht]
    rw [if_neg h1, if_neg h2, if_neg h3]
  simp only [normalize_one, hf, Option.getD_some, hv]
  exact ⟨_, rfl, rfl⟩

/-- Witness for C7 at a concrete input: an answer of type `file_url`
(outside number/choice/text) keeps its record minus the `field` key. -/
theorem normalizer_unknown_kind_preserves_record_witness :
    ∃ n, normalize_one []
      [(("field".data), .pdict [(("id".data), .pstr ("f1".data))]),
       (("type".data), .pstr ("file_url".data)),
       (("file_url".data), .pstr ("http".data))] = some n ∧
    n.value = .pdict
      ([(("field".data), PyVal.pdict [(("id".data), PyVal.pstr ("f1".data))]),
        (("type".data), PyVal.pstr ("file_url".data)),
        (("file_url".data), PyVal.pstr ("http".data))].filter
        (fun kv => kv.1 ≠ ("field".data))) :=
  normalizer_unknown_kind_preserves_record []
    [(("field".data), .pdict [(("id".data), .pstr ("f1".data))]),
     (("type".data), .pstr ("file_url".data)),
     (("file_url".data), .pstr ("http".data))]
    [(("id".data), .pstr ("f1".data))] ("file_url".data)
    rfl rfl (by decide) (by decide) (by decide)

end TripRec
